import Mathlib

/-!
Verification of the macOS defaults reconciliation engine
(`src/utils/macos-apply-defaults.py`).

The Python program is shallowly embedded: the Python values appearing in
plists/TOML documents are the inductive `Value`; dictionaries are
insertion-ordered association lists; object identity (Python `is`) is
tracked by an explicit boolean flag on the result of `mergeValues`
(`true` exactly when the Python function returns the `old_value` object
itself).  The filesystem is an association list from paths (strings) to
file contents, and every side effect of a run is recorded in an explicit
event list.
-/

set_option maxHeartbeats 1000000

namespace ApplyDefaults

/-- Structured values: the fragment of Python values produced by `tomllib`
and `plistlib` that the program manipulates (strings, integers, booleans,
lists, string-keyed insertion-ordered dicts).  Floats, dates and binary
blobs are opaque scalars to the merge engine and are not modelled. -/
inductive Value where
  | str (s : String)
  | int (n : Int)
  | bool (b : Bool)
  | list (xs : List Value)
  | dict (kvs : List (String × Value))
deriving Repr, Inhabited

mutual
/-- Structural (syntactic) equality test on `Value`, used to derive
decidable equality (`deriving DecidableEq` does not handle this nested
inductive). -/
def beqV : Value → Value → Bool
  | .str a, .str b => a == b
  | .int a, .int b => a == b
  | .bool a, .bool b => a == b
  | .list a, .list b => beqL a b
  | .dict a, .dict b => beqE a b
  | _, _ => false

def beqL : List Value → List Value → Bool
  | [], [] => true
  | x :: xs, y :: ys => beqV x y && beqL xs ys
  | _, _ => false

def beqE : List (String × Value) → List (String × Value) → Bool
  | [], [] => true
  | (k, v) :: ps, (k', v') :: qs => k == k' && beqV v v' && beqE ps qs
  | _, _ => false
end

abbrev Entries := List (String × Value)

/-- `k in d` for a Python dict modelled as an assoc list. -/
def containsKey (k : String) : Entries → Bool
  | [] => false
  | (k', _) :: rest => k' == k || containsKey k rest

/-- `d[k]` (as an `Option`): first entry with the given key. -/
def lookupE (k : String) : Entries → Option Value
  | [] => none
  | (k', v) :: rest => if k' == k then some v else lookupE k rest

/-- `d[k] = v`: replace the first entry with key `k` in place, else append
(Python dict assignment preserves insertion position of existing keys and
appends new keys). -/
def setKey (k : String) (v : Value) : Entries → Entries
  | [] => [(k, v)]
  | (k', v') :: rest => if k' == k then (k, v) :: rest else (k', v') :: setKey k v rest

/-- Keys of a faithful Python dict are pairwise distinct. -/
def nodupKeysB : Entries → Bool
  | [] => true
  | (k, _) :: rest => !containsKey k rest && nodupKeysB rest

/-- Insertion into a list sorted by `le` (model of Python `sorted`). -/
def insertWith (le : α → α → Bool) (a : α) : List α → List α
  | [] => [a]
  | b :: bs => if le a b then a :: b :: bs else b :: insertWith le a bs

/-- Insertion sort by `le` (model of Python `sorted`, which for our uses
compares by a key on which the order is total). -/
def sortWith (le : α → α → Bool) : List α → List α
  | [] => []
  | a :: as => insertWith le a (sortWith le as)

/-- `sorted(d.items())` sorts key/value tuples; since keys are unique the
tuple comparison reduces to comparison of the (string) keys. -/
def sortByKey (kvs : Entries) : Entries :=
  sortWith (fun p q => p.1 ≤ q.1) kvs

mutual
/-- Normal form used to model Python `==` on structured values: Python
compares dicts as unordered key→value maps (here: sorted by key) and
treats `True == 1` / `False == 0` as equal (bools are ints); lists are
compared elementwise and distinct types are unequal. -/
def normV : Value → Value
  | .str s => .str s
  | .int n => .int n
  | .bool b => .int (if b then 1 else 0)
  | .list xs => .list (normL xs)
  | .dict kvs => .dict (sortByKey (normE kvs))

def normL : List Value → List Value
  | [] => []
  | x :: xs => normV x :: normL xs

def normE : List (String × Value) → List (String × Value)
  | [] => []
  | (k, v) :: rest => (k, normV v) :: normE rest
end

/-- Python `==` on structured values: equality of normal forms. -/
def pyEq (a b : Value) : Bool :=
  beqV (normV a) (normV b)

mutual
/-- Model of Python `repr` on our value fragment (string escaping inside
`repr` of a string is not modelled; the values the program compares render
without quotes or escapes). -/
def pyRepr : Value → String
  | .str s => "'" ++ s ++ "'"
  | .int n => toString n
  | .bool b => if b then "True" else "False"
  | .list xs => "[" ++ pyReprL xs ++ "]"
  | .dict kvs => "\x7b" ++ pyReprE kvs ++ "\x7d"

def pyReprL : List Value → String
  | [] => ""
  | [x] => pyRepr x
  | x :: xs => pyRepr x ++ ", " ++ pyReprL xs

def pyReprE : List (String × Value) → String
  | [] => ""
  | [(k, v)] => "'" ++ k ++ "': " ++ pyRepr v
  | (k, v) :: rest => "'" ++ k ++ "': " ++ pyRepr v ++ ", " ++ pyReprE rest
end

/-- Model of Python `str` (differs from `repr` only on strings). -/
def pyStr : Value → String
  | .str s => s
  | v => pyRepr v

/-- `item_key` from `merge_values`: a dict's dedup key is
`str(sorted(item.items()))` (a list of key/value tuples sorted by key);
any other value's dedup key is `str(item)`. -/
def itemKey : Value → String
  | .dict kvs =>
      "[" ++ String.intercalate ", "
        ((sortByKey kvs).map (fun p => "('" ++ p.1 ++ "', " ++ pyRepr p.2 ++ ")")) ++ "]"
  | v => pyStr v

/-! ## The merge engine (`merge_values`) -/

/-- The dedup keys of all items already present in the old sequence: the
`seen` set is pre-seeded with these (`merge_values`, list branch). -/
def seedSeen : List Value → List String
  | [] => []
  | x :: xs => itemKey x :: seedSeen xs

/-- Python `item in result` (membership by `==`). -/
def pyMem (x : Value) (l : List Value) : Bool :=
  l.any (fun y => pyEq y x)

/-- The `"..."` splice: append every item of the old sequence (in order)
that is not already present *by value* in the result built so far. -/
def spliceOld (result : List Value) : List Value → List Value
  | [] => result
  | x :: xs =>
      if pyMem x result then spliceOld result xs
      else spliceOld (result ++ [x]) xs

/-- The main loop of the list branch of `merge_values`, carrying
(result, seen, changed).  `old` is the whole old value (the splice only
fires when it is a list). -/
def mergeListLoop (old : Value) : List Value → List Value → List String → Bool →
    List Value × List String × Bool
  | [], result, seen, changed => (result, seen, changed)
  | item :: rest, result, seen, changed =>
      if pyEq item (.str "...") then
        let result' := match old with
          | .list oldItems => spliceOld result oldItems
          | _ => result
        mergeListLoop old rest result' seen changed
      else
        let k := itemKey item
        if seen.contains k then mergeListLoop old rest result seen changed
        else mergeListLoop old rest (result ++ [item]) (k :: seen) true

/-- The list branch of `merge_values` (`new_value` is a list).  Returns the
merged value together with the identity flag (`true` iff Python returns the
`old_value` object itself). -/
def mergeList (old : Value) (ns : List Value) : Value × Bool :=
  let seen0 := match old with
    | .list xs => seedSeen xs
    | _ => []
  let r := mergeListLoop old ns [] seen0 false
  if r.2.2 = false then
    match old with
    | .list oldItems =>
        if r.1.length = oldItems.length then (old, true) else (.list r.1, false)
    | _ => (.list r.1, false)
  else (.list r.1, false)

mutual
/-- `merge_values(old_value, new_value)`.  The second component is `true`
exactly when the Python function returns the `old_value` object itself
(the identity used by `apply_defaults` for O(1) no-op detection); every
other return is a freshly constructed object (`false`). -/
def mergeValues : Value → Value → Value × Bool
  | old, .dict ns =>
      match old with
      | .dict os =>
          if containsKey "!" ns then
            (.dict (ns.filter (fun p => p.1 ≠ "!")), false)
          else
            let r := mergeDictLoop os ns false
            if r.2 then (.dict r.1, false) else (.dict os, true)
      | _ =>
          if pyEq old (.dict ns) then (old, true) else (.dict ns, false)
  | old, .list ns => mergeList old ns
  | old, new => if pyEq old new then (old, true) else (new, false)

/-- The recursive key-wise merge loop of the dict branch: for each key of
`new`, merge into `result` (initially a copy of `old`), tracking whether
any assignment happened. -/
def mergeDictLoop : Entries → Entries → Bool → Entries × Bool
  | result, [], changed => (result, changed)
  | result, (k, v) :: rest, changed =>
      match lookupE k result with
      | some cur =>
          let m := mergeValues cur v
          if m.2 then mergeDictLoop result rest changed
          else mergeDictLoop (setKey k m.1 result) rest true
      | none => mergeDictLoop (setKey k v result) rest true
end

mutual
/-- Well-behaved desired values: no sequences, no clear-marker (`"!"`)
keys, and duplicate-free dict keys (every dict produced by the TOML parser
has unique keys; sequences and clear-markers are the two features under
which a repeated merge is not a no-op). -/
def valueOK : Value → Bool
  | .str _ => true
  | .int _ => true
  | .bool _ => true
  | .list _ => false
  | .dict kvs => !containsKey "!" kvs && nodupKeysB kvs && entriesOK kvs

def entriesOK : List (String × Value) → Bool
  | [] => true
  | (_, v) :: rest => valueOK v && entriesOK rest
end

mutual
/-- Well-formed Python value: every dict anywhere inside it has
duplicate-free keys (true of everything `tomllib`/`plistlib` produce). -/
def wfValue : Value → Bool
  | .str _ => true
  | .int _ => true
  | .bool _ => true
  | .list xs => wfList xs
  | .dict kvs => nodupKeysB kvs && wfEntries kvs

def wfList : List Value → Bool
  | [] => true
  | x :: xs => wfValue x && wfList xs

def wfEntries : List (String × Value) → Bool
  | [] => true
  | (_, v) :: rest => wfValue v && wfEntries rest
end

/-! ## Filesystem model, store locator, store codec -/

abbrev Path := String

/-- Content of a file on disk: either a well-formed plist (with its
binary/XML encoding) or bytes that fail to parse as a plist. -/
inductive FileData where
  | plist (binary : Bool) (v : Value)
  | corrupt (blob : String)
deriving Repr

/-- The filesystem: an association list from paths to file contents
(absent path = no file). -/
abbrev FS := List (Path × FileData)

def lookupFS (p : Path) : FS → Option FileData
  | [] => none
  | (q, fd) :: rest => if q = p then some fd else lookupFS p rest

def setFS (p : Path) (fd : FileData) : FS → FS
  | [] => [(p, fd)]
  | (q, fd') :: rest => if q = p then (p, fd) :: rest else (q, fd') :: setFS p fd rest

def removeFS (p : Path) (fs : FS) : FS :=
  fs.filter (fun q => q.1 ≠ p)

def existsFS (fs : FS) (p : Path) : Bool :=
  (lookupFS p fs).isSome

/-- Side effects performed by a run (log lines are kept separate). -/
inductive Event where
  | mkdirP (dir : Path)
  | backup (p : Path)
  | writeFile (p : Path)
  | kill (name : String)
  | invalidateCache
  | unlink (p : Path)
deriving Repr, DecidableEq

/-- A log line with its level (`"info"`, `"debug"`, `"trace"`). -/
structure LogEntry where
  level : String
  msg : String
deriving Repr, DecidableEq

/-- `str.startswith(prefix)` (list-based so that it computes in the
kernel). -/
def strStartsWith (s pre : String) : Bool :=
  pre.data.isPrefixOf s.data

/-- `str.endswith(suffix)` (list-based so that it computes in the
kernel). -/
def strEndsWith (s suf : String) : Bool :=
  suf.data.isSuffixOf s.data

/-- First `n` characters of a string. -/
def strTake (s : String) (n : Nat) : String :=
  ⟨s.data.take n⟩

/-- Drop the first `n` characters of a string. -/
def strDrop (s : String) (n : Nat) : String :=
  ⟨s.data.drop n⟩

/-- Drop the last `n` characters of a string. -/
def strDropRight (s : String) (n : Nat) : String :=
  ⟨s.data.take (s.data.length - n)⟩

/-- Split a string at every occurrence of the character `c`
(`str.split(c)` / the component decomposition `pathlib` performs). -/
def splitOnCharAux (c : Char) : List Char → List Char → List String
  | [], acc => [⟨acc.reverse⟩]
  | x :: xs, acc =>
      if x = c then ⟨acc.reverse⟩ :: splitOnCharAux c xs []
      else splitOnCharAux c xs (x :: acc)

def splitOnChar (c : Char) (s : String) : List String :=
  splitOnCharAux c s.data []

/-- `Path.home()`, fixed for the process. -/
def home : Path := "/Users/user"

/-- `HARDWARE_UUID`: queried from `ioreg` once per process; modelled as an
opaque constant (the fallback sentinel `"UNKNOWN"` behaves identically for
path construction). -/
def hardwareUUID : String := "AAAA-BBBB"

/-- The memoized sandboxed-container existence cache
(`_sandboxed_cache: dict[str, bool]`). -/
abbrev Cache := List (String × Bool)

def lookupCache (d : String) : Cache → Option Bool
  | [] => none
  | (d', b) :: rest => if d' = d then some b else lookupCache d rest

/-- Last `/`-separated component of a path (`PurePath.name`). -/
def lastComponent (s : String) : String :=
  (splitOnChar '/' s).getLastD ""

/-- `PurePath.suffix`: the part of the name from its last dot, when that
dot is neither leading nor trailing; otherwise empty. -/
def pathSuffix (s : String) : String :=
  let name := lastComponent s
  let cs := name.toList
  match cs.reverse.findIdx? (· = '.') with
  | none => ""
  | some j =>
      let i := cs.length - 1 - j
      if 0 < i ∧ i < cs.length - 1 then ⟨cs.drop i⟩ else ""

/-- `path if path.suffix == ".plist" else path.with_suffix(".plist")`:
normalize a literal path to carry the `.plist` suffix. -/
def withPlistSuffix (s : String) : String :=
  if pathSuffix s = ".plist" then s
  else strDropRight s (pathSuffix s).length ++ ".plist"

/-- `Path.expanduser()` (the `~user` form is not modelled). -/
def expanduser (s : String) : String :=
  if s = "~" then home
  else if strStartsWith s "~/" then home ++ strDrop s 1
  else s

/-- The sandboxed-container variant of a domain's store path. -/
def sandboxPath (domain : String) : Path :=
  home ++ "/Library/Containers/" ++ domain ++ "/Data/Library/Preferences/" ++ domain ++ ".plist"

/-- The standard per-domain store path. -/
def standardPath (domain : String) : Path :=
  home ++ "/Library/Preferences/" ++ domain ++ ".plist"

/-- The host-scoped (ByHost) per-domain store path. -/
def byHostPath (domain : String) : Path :=
  home ++ "/Library/Preferences/ByHost/" ++ domain ++ "." ++ hardwareUUID ++ ".plist"

/-- `get_plist_path(domain, current_host)`: resolve a domain identifier to
its store path, threading the memoization cache for the sandboxed-container
existence check. -/
def getPlistPath (cache : Cache) (fs : FS) (domain : String) (currentHost : Bool) :
    Path × Cache :=
  if strStartsWith domain "/" then
    (withPlistSuffix domain, cache)
  else if strEndsWith domain ".plist" then
    (expanduser domain, cache)
  else if currentHost then
    if domain = "NSGlobalDomain" ∨ domain = "-g" then
      (home ++ "/Library/Preferences/ByHost/.GlobalPreferences." ++ hardwareUUID ++ ".plist", cache)
    else
      (byHostPath domain, cache)
  else if domain = "NSGlobalDomain" ∨ domain = "-g" then
    (home ++ "/Library/Preferences/.GlobalPreferences.plist", cache)
  else
    let (b, cache') :=
      match lookupCache domain cache with
      | some b => (b, cache)
      | none => (existsFS fs (sandboxPath domain), (domain, existsFS fs (sandboxPath domain)) :: cache)
    if b then (sandboxPath domain, cache') else (standardPath domain, cache')

/-- `is_binary_plist`: first 8 bytes equal to the binary magic; missing or
unreadable files default to binary. -/
def isBinaryPlist (fs : FS) (p : Path) : Bool :=
  match lookupFS p fs with
  | none => true
  | some (.plist b _) => b
  | some (.corrupt blob) => strTake blob 8 == "bplist00"

/-- `read_plist(path, use_sudo)`: missing file yields the empty mapping
with no log; a file that fails to parse (for either the normal or the
elevated reader, both of which raise and are caught) yields the empty
mapping and one debug-level warning.  Total by construction: no exception
escapes. -/
def readPlist (fs : FS) (p : Path) (useSudo : Bool) : Value × List LogEntry :=
  match lookupFS p fs with
  | none => (.dict [], [])
  | some (.plist _ v) => (v, [])
  | some (.corrupt _) =>
      (.dict [], [{ level := "debug", msg := "Warning: Failed to read " ++ p }])

/-- Directory part of a path (for the `mkdir(parents=True)` event). -/
def dirName (p : Path) : Path :=
  String.intercalate "/" ((splitOnChar '/' p).dropLast)

/-- `write_plist(path, data, use_sudo, dry_run)`: returns
(returned backup path, new filesystem, events).  In dry-run mode it
returns before any effect.  Otherwise: (non-sudo) parent directory is
created; the target encoding is detected from the pre-write state; if the
target exists it is first copied to `path + ".prev"`; the serialized value
is then written (the sudo path and the non-sudo PermissionError fallback
write via a temp file + move, modelled as the same successful write).
The sudo branch returns the backup path iff the target exists after the
write; the non-sudo branch returns it iff the backup path exists after the
write. -/
def writePlist (fs : FS) (p : Path) (data : Value) (useSudo dryRun : Bool) :
    Option Path × FS × List Event :=
  if dryRun then (none, fs, [])
  else
    let mkEv : List Event := if useSudo then [] else [.mkdirP (dirName p)]
    let fmt := isBinaryPlist fs p
    let backupPath := p ++ ".prev"
    let (fs1, ev1) :=
      match lookupFS p fs with
      | some fd => (setFS backupPath fd fs, [Event.backup backupPath])
      | none => (fs, ([] : List Event))
    let fs2 := setFS p (.plist fmt data) fs1
    let ret :=
      if useSudo then
        if existsFS fs2 p then some backupPath else none
      else
        if existsFS fs2 backupPath then some backupPath else none
    (ret, fs2, mkEv ++ ev1 ++ [Event.writeFile p])

/-! ## Domain applier and run orchestrator -/

/-- Result of `apply_defaults` for one domain, together with the state it
threads (filesystem, memoization cache) and the effects it performed.
`path` records the resolved store path. -/
structure ApplyResult where
  changed : Bool
  backup : Option Path
  fs : FS
  cache : Cache
  events : List Event
  path : Path
deriving Repr

/-- `apply_defaults(domain, values, current_host, use_sudo, dry_run)`:
resolve the store path, read the current value, merge, and — unless the
merge returned the very object it was given — write the merged value. -/
def applyDefaults (fs : FS) (cache : Cache) (domain : String) (values : Value)
    (currentHost useSudo dryRun : Bool) : ApplyResult :=
  let pc := getPlistPath cache fs domain currentHost
  let old := (readPlist fs pc.1 useSudo).1
  let m := mergeValues old values
  if m.2 then
    { changed := false, backup := none, fs := fs, cache := pc.2, events := [], path := pc.1 }
  else
    let w := writePlist fs pc.1 m.1 useSudo dryRun
    { changed := true, backup := w.1, fs := w.2.1, cache := pc.2, events := w.2.2, path := pc.1 }

/-- Result of applying every domain of one configuration unit in order. -/
structure DomainsResult where
  changedAny : Bool
  flags : List Bool
  backups : List Path
  fs : FS
  cache : Cache
  events : List Event
  paths : List Path
deriving Repr

/-- The per-domain loop of `process_toml_file`: apply each `(domain,
values)` pair in order, OR-ing the changed flags and collecting the backup
paths actually returned. -/
def applyDomains (fs : FS) (cache : Cache) (data : List (String × Value))
    (currentHost useSudo dryRun : Bool) : DomainsResult :=
  match data with
  | [] =>
      { changedAny := false, flags := [], backups := [], fs := fs, cache := cache,
        events := [], paths := [] }
  | (d, v) :: rest =>
      let r := applyDefaults fs cache d v currentHost useSudo dryRun
      let rr := applyDomains r.fs r.cache rest currentHost useSudo dryRun
      { changedAny := r.changed || rr.changedAny,
        flags := r.changed :: rr.flags,
        backups := (match r.backup with | some b => [b] | none => []) ++ rr.backups,
        fs := rr.fs, cache := rr.cache,
        events := r.events ++ rr.events,
        paths := r.path :: rr.paths }

/-- One parsed TOML configuration unit. -/
structure ConfigUnit where
  description : String
  currentHost : Bool
  useSudo : Bool
  kill : List String
  data : List (String × Value)
deriving Repr

/-- Python `set` modelled as a duplicate-free list: add an element. -/
def insertIfAbsent (x : String) (l : List String) : List String :=
  if l.contains x then l else l ++ [x]

/-- `acc.update(new)` on the set model. -/
def unionAll (acc : List String) (new : List String) : List String :=
  new.foldl (fun a x => insertIfAbsent x a) acc

/-- `set(kill_list)`. -/
def dedupList (l : List String) : List String :=
  unionAll [] l

/-- Result of `process_toml_file` for one unit (parse success assumed;
units whose documents fail to parse contribute the same as empty ones). -/
structure UnitResult where
  changed : Bool
  processes : List String
  backups : List Path
  fs : FS
  cache : Cache
  events : List Event
deriving Repr

/-- `process_toml_file`: a unit with no `data` is a no-op; otherwise apply
every domain and return the unit's (deduplicated) kill list only when some
domain changed. -/
def processTomlFile (fs : FS) (cache : Cache) (unit : ConfigUnit) (dryRun : Bool) :
    UnitResult :=
  if unit.data.isEmpty then
    { changed := false, processes := [], backups := [], fs := fs, cache := cache, events := [] }
  else
    let r := applyDomains fs cache unit.data unit.currentHost unit.useSudo dryRun
    { changed := r.changedAny,
      processes := if r.changedAny then dedupList unit.kill else [],
      backups := r.backups, fs := r.fs, cache := r.cache, events := r.events }

/-- Result of a whole run over a list of units. -/
structure RunResult where
  changed : Bool
  processes : List String
  backups : List Path
  unitFlags : List Bool
  fs : FS
  cache : Cache
  events : List Event
deriving Repr

/-- The directory arm of `process_path`: process each unit in order,
OR-ing change flags, unioning restart sets and concatenating backups. -/
def processUnits (fs : FS) (cache : Cache) (units : List ConfigUnit) (dryRun : Bool) :
    RunResult :=
  match units with
  | [] =>
      { changed := false, processes := [], backups := [], unitFlags := [],
        fs := fs, cache := cache, events := [] }
  | u :: rest =>
      let r := processTomlFile fs cache u dryRun
      let rr := processUnits r.fs r.cache rest dryRun
      { changed := r.changed || rr.changed,
        processes := unionAll rr.processes r.processes,
        backups := r.backups ++ rr.backups,
        unitFlags := r.changed :: rr.unitFlags,
        fs := rr.fs, cache := rr.cache,
        events := r.events ++ rr.events }

/-- `kill_processes(processes, dry_run)`: iterate the sorted set; in
dry-run mode only log, otherwise `killall` each name (best-effort). -/
def killProcesses (processes : List String) (dryRun : Bool) : List Event :=
  if dryRun then []
  else (sortWith (fun a b : String => a ≤ b) processes).map Event.kill

/-- `cleanup_backups`: best-effort unlink of each backup path (missing
files raise and are caught; permission failures retry with sudo —
modelled as a successful removal for existing paths). -/
def cleanupBackups (fs : FS) : List Path → FS × List Event
  | [] => (fs, [])
  | p :: rest =>
      if existsFS fs p then
        let r := cleanupBackups (removeFS p fs) rest
        (r.1, Event.unlink p :: r.2)
      else cleanupBackups fs rest

/-- The tail of `main` after argument parsing: process all units; if any
domain changed anywhere, kill the aggregated process set and restart
`cfprefsd` (the cache-invalidation signal, dry-run: log only); finally
clean up all collected backups. -/
def runMain (units : List ConfigUnit) (fs : FS) (cache : Cache) (dryRun : Bool) :
    RunResult :=
  let pr := processUnits fs cache units dryRun
  let killEvs := if pr.changed then killProcesses pr.processes dryRun else []
  let invEvs : List Event := if pr.changed ∧ ¬dryRun then [.invalidateCache] else []
  let cl := cleanupBackups pr.fs pr.backups
  { pr with fs := cl.1, events := pr.events ++ killEvs ++ invEvs ++ cl.2 }

/-! ## Basic lemmas about the dict model -/

mutual
theorem beqV_iff : (a b : Value) → (beqV a b = true ↔ a = b)
  | .str a, .str b => by simp [beqV]
  | .int a, .int b => by simp [beqV]
  | .bool a, .bool b => by simp [beqV]
  | .list a, .list b => by simp [beqV, beqL_iff a b]
  | .dict a, .dict b => by simp [beqV, beqE_iff a b]
  | .str _, .int _ => by simp [beqV]
  | .str _, .bool _ => by simp [beqV]
  | .str _, .list _ => by simp [beqV]
  | .str _, .dict _ => by simp [beqV]
  | .int _, .str _ => by simp [beqV]
  | .int _, .bool _ => by simp [beqV]
  | .int _, .list _ => by simp [beqV]
  | .int _, .dict _ => by simp [beqV]
  | .bool _, .str _ => by simp [beqV]
  | .bool _, .int _ => by simp [beqV]
  | .bool _, .list _ => by simp [beqV]
  | .bool _, .dict _ => by simp [beqV]
  | .list _, .str _ => by simp [beqV]
  | .list _, .int _ => by simp [beqV]
  | .list _, .bool _ => by simp [beqV]
  | .list _, .dict _ => by simp [beqV]
  | .dict _, .str _ => by simp [beqV]
  | .dict _, .int _ => by simp [beqV]
  | .dict _, .bool _ => by simp [beqV]
  | .dict _, .list _ => by simp [beqV]

theorem beqL_iff : (xs ys : List Value) → (beqL xs ys = true ↔ xs = ys)
  | [], [] => by simp [beqL]
  | x :: xs, y :: ys => by simp [beqL, beqV_iff x y, beqL_iff xs ys]
  | [], _ :: _ => by simp [beqL]
  | _ :: _, [] => by simp [beqL]

theorem beqE_iff : (ps qs : List (String × Value)) → (beqE ps qs = true ↔ ps = qs)
  | [], [] => by simp [beqE]
  | (k, v) :: ps, (k', v') :: qs => by
      simp [beqE, beqV_iff v v', beqE_iff ps qs, and_assoc]
  | [], _ :: _ => by simp [beqE]
  | _ :: _, [] => by simp [beqE]
end

theorem beqV_refl (a : Value) : beqV a a = true :=
  (beqV_iff a a).mpr rfl


theorem lookupE_setKey_self (k : String) (v : Value) (l : Entries) :
    lookupE k (setKey k v l) = some v := by
  induction l with
  | nil => simp [setKey, lookupE]
  | cons p rest ih =>
      obtain ⟨k', v'⟩ := p
      by_cases h : k' = k
      · simp [setKey, h, lookupE]
      · simp [setKey, h, lookupE, ih]

theorem lookupE_setKey_ne (k k' : String) (v : Value) (l : Entries) (h : k' ≠ k) :
    lookupE k' (setKey k v l) = lookupE k' l := by
  induction l with
  | nil => simp [setKey, lookupE, Ne.symm h]
  | cons p rest ih =>
      obtain ⟨k₀, v₀⟩ := p
      by_cases h0 : k₀ = k
      · subst h0
        simp [setKey, lookupE, Ne.symm h]
      · by_cases h1 : k₀ = k'
        · simp [setKey, h0, lookupE, h1, h]
        · simp [setKey, h0, lookupE, h1, ih]

theorem lookupE_mem {k : String} {v : Value} {l : Entries}
    (h : lookupE k l = some v) : (k, v) ∈ l := by
  induction l with
  | nil => simp [lookupE] at h
  | cons p rest ih =>
      obtain ⟨k', v'⟩ := p
      by_cases h0 : k' = k
      · subst h0
        simp [lookupE] at h
        simp [h]
      · simp [lookupE, h0] at h
        exact List.mem_cons_of_mem _ (ih h)

theorem containsKey_of_mem {k : String} {v : Value} {l : Entries}
    (h : (k, v) ∈ l) : containsKey k l = true := by
  induction l with
  | nil => simp at h
  | cons q qs ih =>
      rcases List.mem_cons.mp h with h1 | h1
      · cases h1
        simp [containsKey]
      · obtain ⟨q1, q2⟩ := q
        simp [containsKey, ih h1]

theorem mem_lookupE_nodup {k : String} {v : Value} {l : Entries}
    (hm : (k, v) ∈ l) (hnd : nodupKeysB l = true) : lookupE k l = some v := by
  induction l with
  | nil => simp at hm
  | cons p rest ih =>
      obtain ⟨k', v'⟩ := p
      simp only [nodupKeysB, Bool.and_eq_true, Bool.not_eq_true'] at hnd
      rcases List.mem_cons.mp hm with h | h
      · cases h
        simp [lookupE]
      · by_cases h0 : k' = k
        · exfalso
          subst h0
          have hc := containsKey_of_mem h
          simp [hc] at hnd
        · simp [lookupE, h0, ih h hnd.2]

theorem containsKey_false_lookupE {k : String} {l : Entries}
    (h : containsKey k l = false) : lookupE k l = none := by
  induction l with
  | nil => simp [lookupE]
  | cons p rest ih =>
      obtain ⟨k', v'⟩ := p
      simp only [containsKey, Bool.or_eq_false_iff, beq_eq_false_iff_ne, ne_eq] at h
      simp [lookupE, h.1, ih h.2]

theorem pyEq_refl (v : Value) : pyEq v v = true := by
  simp [pyEq, beqV_refl]

@[simp]
theorem pyEq_str_iff (s t : String) : pyEq (.str s) (.str t) = true ↔ s = t := by
  simp [pyEq, normV, beqV_iff]

theorem normV_str_eq {v : Value} {s : String} (h : normV v = .str s) : v = .str s := by
  cases v with
  | str t => simpa [normV] using h
  | int n => simp [normV] at h
  | bool b => simp [normV] at h
  | list xs => simp [normV] at h
  | dict kvs => simp [normV] at h

/-- `item == "..."` in Python holds exactly for the string `"..."` on our
value fragment. -/
theorem pyEq_ellipsis_iff (v : Value) : pyEq v (.str "...") = true ↔ v = .str "..." := by
  constructor
  · intro h
    simp only [pyEq, beqV_iff, normV] at h
    exact normV_str_eq h
  · intro h
    simp [h, pyEq_refl]

/-! ## Merge engine lemmas -/

theorem sizeOf_lt_of_mem_entries {k : String} {v : Value} {l : Entries}
    (h : (k, v) ∈ l) : sizeOf v < sizeOf l := by
  induction l with
  | nil => simp at h
  | cons p rest ih =>
      rcases List.mem_cons.mp h with h1 | h1
      · cases h1
        simp only [List.cons.sizeOf_spec, Prod.mk.sizeOf_spec]
        omega
      · have := ih h1
        simp only [List.cons.sizeOf_spec]
        omega

theorem entriesOK_mem {k : String} {v : Value} {l : Entries}
    (hm : (k, v) ∈ l) (h : entriesOK l = true) : valueOK v = true := by
  induction l with
  | nil => simp at hm
  | cons p rest ih =>
      obtain ⟨k', v'⟩ := p
      simp only [entriesOK, Bool.and_eq_true] at h
      rcases List.mem_cons.mp hm with h1 | h1
      · cases h1
        exact h.1
      · exact ih h1 h.2

theorem wfEntries_mem {k : String} {v : Value} {l : Entries}
    (hm : (k, v) ∈ l) (h : wfEntries l = true) : wfValue v = true := by
  induction l with
  | nil => simp at hm
  | cons p rest ih =>
      obtain ⟨k', v'⟩ := p
      simp only [wfEntries, Bool.and_eq_true] at h
      rcases List.mem_cons.mp hm with h1 | h1
      · cases h1
        exact h.1
      · exact ih h1 h.2

/-- If the list branch reports identity, the returned value is `old`. -/
theorem mergeList_flag_eq {old : Value} {ns : List Value}
    (h : (mergeList old ns).2 = true) : (mergeList old ns).1 = old := by
  cases old with
  | list oldItems =>
      simp only [mergeList] at h ⊢
      by_cases h1 : (mergeListLoop (.list oldItems) ns [] (seedSeen oldItems) false).2.2 = false
      · simp only [h1, if_true] at h ⊢
        by_cases h2 : (mergeListLoop (.list oldItems) ns [] (seedSeen oldItems) false).1.length
            = oldItems.length
        · simp [h2]
        · simp [h2] at h
      · simp [h1] at h
  | str s =>
      simp only [mergeList] at h
      by_cases h1 : (mergeListLoop (.str s) ns [] [] false).2.2 = false
      · simp [h1] at h
      · simp [h1] at h
  | int n =>
      simp only [mergeList] at h
      by_cases h1 : (mergeListLoop (.int n) ns [] [] false).2.2 = false
      · simp [h1] at h
      · simp [h1] at h
  | bool b =>
      simp only [mergeList] at h
      by_cases h1 : (mergeListLoop (.bool b) ns [] [] false).2.2 = false
      · simp [h1] at h
      · simp [h1] at h
  | dict kvs =>
      simp only [mergeList] at h
      by_cases h1 : (mergeListLoop (.dict kvs) ns [] [] false).2.2 = false
      · simp [h1] at h
      · simp [h1] at h

/-- If `merge_values` reports identity, the returned value is `old`. -/
theorem mergeValues_flag_eq {a b : Value}
    (h : (mergeValues a b).2 = true) : (mergeValues a b).1 = a := by
  cases b with
  | list ns => exact mergeList_flag_eq h
  | dict ns =>
      cases a with
      | dict os =>
          simp only [mergeValues] at h ⊢
          by_cases h1 : containsKey "!" ns = true
          · simp [h1] at h
          · by_cases h2 : (mergeDictLoop os ns false).2 = true
            · simp [h1, h2] at h
            · simp [h1, h2]
      | str s =>
          simp only [mergeValues] at h ⊢
          by_cases h1 : pyEq (Value.str s) (Value.dict ns) = true
          · simp [h1]
          · simp [h1] at h
      | int n =>
          simp only [mergeValues] at h ⊢
          by_cases h1 : pyEq (Value.int n) (Value.dict ns) = true
          · simp [h1]
          · simp [h1] at h
      | bool b' =>
          simp only [mergeValues] at h ⊢
          by_cases h1 : pyEq (Value.bool b') (Value.dict ns) = true
          · simp [h1]
          · simp [h1] at h
      | list xs =>
          simp only [mergeValues] at h ⊢
          by_cases h1 : pyEq (Value.list xs) (Value.dict ns) = true
          · simp [h1]
          · simp [h1] at h
  | str s =>
      simp only [mergeValues] at h ⊢
      by_cases h1 : pyEq a (Value.str s) = true
      · simp [h1]
      · simp [h1] at h
  | int n =>
      simp only [mergeValues] at h ⊢
      by_cases h1 : pyEq a (Value.int n) = true
      · simp [h1]
      · simp [h1] at h
  | bool b' =>
      simp only [mergeValues] at h ⊢
      by_cases h1 : pyEq a (Value.bool b') = true
      · simp [h1]
      · simp [h1] at h

/-- Once the dict loop has marked `changed`, it stays marked. -/
theorem mergeDictLoop_true (items : Entries) :
    ∀ result : Entries, (mergeDictLoop result items true).2 = true := by
  induction items with
  | nil => intro result; rfl
  | cons p rest ih =>
      intro result
      obtain ⟨k, v⟩ := p
      rw [mergeDictLoop]
      cases lookupE k result with
      | none => exact ih _
      | some cur =>
          by_cases hm : (mergeValues cur v).2 = true
          · simp only [hm, if_true]
            exact ih _
          · simp only [Bool.not_eq_true] at hm
            simp only [hm, Bool.false_eq_true, if_false]
            exact ih _

/-- If every key of `new` already maps (in `result`) to a value whose merge
with the new value reports identity, the loop changes nothing. -/
theorem mergeDictLoop_unchanged {items : Entries} {result : Entries} {changed : Bool}
    (h : ∀ kv ∈ items, ∃ w, lookupE kv.1 result = some w ∧ (mergeValues w kv.2).2 = true) :
    mergeDictLoop result items changed = (result, changed) := by
  induction items with
  | nil => rfl
  | cons p rest ih =>
      obtain ⟨k, v⟩ := p
      obtain ⟨w, hw, hflag⟩ := h (k, v) (List.mem_cons_self _ _)
      rw [mergeDictLoop, hw]
      simp only [hflag, if_true]
      exact ih (fun kv hkv => h kv (List.mem_cons_of_mem _ hkv))

/-- If the loop reports no change, the result is the dict it started from. -/
theorem mergeDictLoop_false_result {items : Entries} :
    ∀ {result : Entries}, (mergeDictLoop result items false).2 = false →
      (mergeDictLoop result items false).1 = result := by
  induction items with
  | nil => intro result _; rfl
  | cons p rest ih =>
      intro result h
      obtain ⟨k, v⟩ := p
      rw [mergeDictLoop] at h ⊢
      cases hl : lookupE k result with
      | none =>
          rw [hl] at h
          dsimp only at h ⊢
          rw [mergeDictLoop_true] at h
          cases h
      | some cur =>
          rw [hl] at h
          dsimp only at h ⊢
          by_cases hm : (mergeValues cur v).2 = true
          · simp only [hm, if_true] at h ⊢
            exact ih h
          · simp only [Bool.not_eq_true] at hm
            simp only [hm, Bool.false_eq_true, if_false] at h
            rw [mergeDictLoop_true] at h
            cases h

/-- Keys that do not occur in `new` are left untouched by the dict loop. -/
theorem mergeDictLoop_lookup_frame {items : Entries} {k : String}
    (h : containsKey k items = false) :
    ∀ (result : Entries) (changed : Bool),
      lookupE k (mergeDictLoop result items changed).1 = lookupE k result := by
  induction items with
  | nil => intro result changed; rfl
  | cons p rest ih =>
      intro result changed
      obtain ⟨k0, v0⟩ := p
      simp only [containsKey, Bool.or_eq_false_iff, beq_eq_false_iff_ne, ne_eq] at h
      rw [mergeDictLoop]
      cases lookupE k0 result with
      | none =>
          rw [ih h.2, lookupE_setKey_ne _ _ _ _ (fun hh => h.1 hh.symm)]
      | some cur =>
          by_cases hm : (mergeValues cur v0).2 = true
          · simp only [hm, if_true]
            exact ih h.2 _ _
          · simp only [Bool.not_eq_true] at hm
            simp only [hm, Bool.false_eq_true, if_false]
            rw [ih h.2, lookupE_setKey_ne _ _ _ _ (fun hh => h.1 hh.symm)]

/-- After the dict loop (on a duplicate-free `new`), each key of `new`
maps to the merge of its old value (when present) with the new value, or
to the new value itself (when absent). -/
theorem mergeDictLoop_lookup {items : Entries} (hnd : nodupKeysB items = true)
    {k : String} {v : Value} (hm : (k, v) ∈ items) :
    ∀ (result : Entries) (changed : Bool),
      lookupE k (mergeDictLoop result items changed).1 =
        some (match lookupE k result with
              | some cur => (mergeValues cur v).1
              | none => v) := by
  induction items with
  | nil => simp at hm
  | cons p rest ih =>
      intro result changed
      obtain ⟨k0, v0⟩ := p
      simp only [nodupKeysB, Bool.and_eq_true, Bool.not_eq_true'] at hnd
      rcases List.mem_cons.mp hm with h1 | h1
      · cases h1
        rw [mergeDictLoop]
        cases hl : lookupE k result with
        | none =>
            rw [mergeDictLoop_lookup_frame hnd.1, lookupE_setKey_self]
        | some cur =>
            by_cases hmm : (mergeValues cur v).2 = true
            · simp only [hmm, if_true]
              rw [mergeDictLoop_lookup_frame hnd.1, hl, mergeValues_flag_eq hmm]
            · simp only [Bool.not_eq_true] at hmm
              simp only [hmm, Bool.false_eq_true, if_false]
              rw [mergeDictLoop_lookup_frame hnd.1, lookupE_setKey_self]
      · have hk0 : k ≠ k0 := by
          intro hh
          subst hh
          exact absurd (containsKey_of_mem h1) (by simp [hnd.1])
        rw [mergeDictLoop]
        cases hl : lookupE k0 result with
        | none =>
            rw [ih hnd.2 h1, lookupE_setKey_ne _ _ _ _ hk0]
        | some cur =>
            by_cases hmm : (mergeValues cur v0).2 = true
            · simp only [hmm, if_true]
              exact ih hnd.2 h1 _ _
            · simp only [Bool.not_eq_true] at hmm
              simp only [hmm, Bool.false_eq_true, if_false]
              rw [ih hnd.2 h1, lookupE_setKey_ne _ _ _ _ hk0]

/-- Merging a well-behaved value (no sequences, no clear-markers,
duplicate-free keys) with itself is a no-op: the `old` object itself is
returned. -/
theorem mergeValues_self : (v : Value) → valueOK v = true → mergeValues v v = (v, true)
  | .str s, _ => by simp [mergeValues, pyEq_refl]
  | .int n, _ => by simp [mergeValues, pyEq_refl]
  | .bool b, _ => by simp [mergeValues, pyEq_refl]
  | .list xs, h => by simp [valueOK] at h
  | .dict kvs, h => by
      simp only [valueOK, Bool.and_eq_true, Bool.not_eq_true'] at h
      obtain ⟨⟨hbang, hnd⟩, hok⟩ := h
      have hloop : mergeDictLoop kvs kvs false = (kvs, false) :=
        mergeDictLoop_unchanged (fun kv hkv => by
          obtain ⟨k, x⟩ := kv
          exact ⟨x, mem_lookupE_nodup hkv hnd, by
            rw [mergeValues_self x (entriesOK_mem hkv hok)]⟩)
      simp [mergeValues, hbang, hloop]
termination_by v _ => sizeOf v
decreasing_by
  simp only [Value.dict.sizeOf_spec]
  have := sizeOf_lt_of_mem_entries hkv
  omega

/-- Re-merging a well-behaved `new` into the result of merging it once is
a no-op (identity): the core of idempotence of `apply_defaults`. -/
theorem mergeValues_idem : (new : Value) → valueOK new = true → ∀ old : Value,
    (mergeValues (mergeValues old new).1 new).2 = true
  | .str s, _ => by
      intro old
      by_cases h1 : pyEq old (.str s) = true
      · simp [mergeValues, h1]
      · simp [mergeValues, h1, pyEq_refl]
  | .int n, _ => by
      intro old
      by_cases h1 : pyEq old (.int n) = true
      · simp [mergeValues, h1]
      · simp [mergeValues, h1, pyEq_refl]
  | .bool b, _ => by
      intro old
      by_cases h1 : pyEq old (.bool b) = true
      · simp [mergeValues, h1]
      · simp [mergeValues, h1, pyEq_refl]
  | .list xs, h => by simp [valueOK] at h
  | .dict ns, h => by
      intro old
      have hok0 := h
      simp only [valueOK, Bool.and_eq_true, Bool.not_eq_true'] at h
      obtain ⟨⟨hbang, hnd⟩, hok⟩ := h
      have hcond : ∀ kv ∈ ns, ∀ os : Entries,
          ∃ w, lookupE kv.1 (mergeDictLoop os ns false).1 = some w ∧
            (mergeValues w kv.2).2 = true := by
        intro kv hkv os
        obtain ⟨k, x⟩ := kv
        refine ⟨_, mergeDictLoop_lookup hnd hkv os false, ?_⟩
        cases hco : lookupE k os with
        | some cur =>
            dsimp only
            exact mergeValues_idem x (entriesOK_mem hkv hok) cur
        | none =>
            dsimp only
            rw [mergeValues_self x (entriesOK_mem hkv hok)]
      cases old with
      | dict os =>
          by_cases hr : (mergeDictLoop os ns false).2 = true
          · have h2 : mergeDictLoop (mergeDictLoop os ns false).1 ns false
                = ((mergeDictLoop os ns false).1, false) :=
              mergeDictLoop_unchanged (fun kv hkv => hcond kv hkv os)
            simp [mergeValues, hbang, hr, h2]
          · simp [mergeValues, hbang, hr]
      | str s =>
          by_cases h1 : pyEq (Value.str s) (Value.dict ns) = true
          · have hfst : (mergeValues (Value.str s) (Value.dict ns)).1 = Value.str s := by
              simp [mergeValues, h1]
            rw [hfst]
            simp [mergeValues, h1]
          · have hfst : (mergeValues (Value.str s) (Value.dict ns)).1 = Value.dict ns := by
              simp [mergeValues, h1]
            rw [hfst, mergeValues_self (.dict ns) hok0]
      | int n =>
          by_cases h1 : pyEq (Value.int n) (Value.dict ns) = true
          · have hfst : (mergeValues (Value.int n) (Value.dict ns)).1 = Value.int n := by
              simp [mergeValues, h1]
            rw [hfst]
            simp [mergeValues, h1]
          · have hfst : (mergeValues (Value.int n) (Value.dict ns)).1 = Value.dict ns := by
              simp [mergeValues, h1]
            rw [hfst, mergeValues_self (.dict ns) hok0]
      | bool b =>
          by_cases h1 : pyEq (Value.bool b) (Value.dict ns) = true
          · have hfst : (mergeValues (Value.bool b) (Value.dict ns)).1 = Value.bool b := by
              simp [mergeValues, h1]
            rw [hfst]
            simp [mergeValues, h1]
          · have hfst : (mergeValues (Value.bool b) (Value.dict ns)).1 = Value.dict ns := by
              simp [mergeValues, h1]
            rw [hfst, mergeValues_self (.dict ns) hok0]
      | list xs =>
          by_cases h1 : pyEq (Value.list xs) (Value.dict ns) = true
          · have hfst : (mergeValues (Value.list xs) (Value.dict ns)).1 = Value.list xs := by
              simp [mergeValues, h1]
            rw [hfst]
            simp [mergeValues, h1]
          · have hfst : (mergeValues (Value.list xs) (Value.dict ns)).1 = Value.dict ns := by
              simp [mergeValues, h1]
            rw [hfst, mergeValues_self (.dict ns) hok0]
termination_by new _ => sizeOf new
decreasing_by
  simp only [Value.dict.sizeOf_spec]
  have := sizeOf_lt_of_mem_entries hkv
  omega

/-! ## List-branch lemmas -/

theorem seedSeen_contains {x : Value} {S : List Value} (h : x ∈ S) :
    (seedSeen S).contains (itemKey x) = true := by
  induction S with
  | nil => simp at h
  | cons y ys ih =>
      rcases List.mem_cons.mp h with h1 | h1
      · subst h1
        simp [seedSeen]
      · simp only [seedSeen, List.contains_cons, Bool.or_eq_true]
        exact Or.inr (ih h1)

/-- If no item of `new` is the preserve-marker and every item's dedup key
is already in `seen`, the list loop appends nothing and marks no change. -/
theorem mergeListLoop_all_seen {old : Value} {items : List Value} {seen : List String}
    (hnp : ∀ x ∈ items, pyEq x (.str "...") = false)
    (hs : ∀ x ∈ items, seen.contains (itemKey x) = true) :
    ∀ (result : List Value) (changed : Bool),
      mergeListLoop old items result seen changed = (result, seen, changed) := by
  induction items with
  | nil => intro result changed; rfl
  | cons x xs ih =>
      intro result changed
      have h1 : ¬ (pyEq x (.str "...") = true) := by
        simp [hnp x (List.mem_cons_self _ _)]
      cases old <;>
        · rw [mergeListLoop, if_neg h1]
          · dsimp only
            rw [if_pos (hs x (List.mem_cons_self _ _))]
            exact ih (fun y hy => hnp y (List.mem_cons_of_mem _ hy))
              (fun y hy => hs y (List.mem_cons_of_mem _ hy)) result changed
          all_goals (intro _ hcc; cases hcc)

/-- **C3** (confirmed): for every non-empty sequence `S` that does not
contain the preserve-marker element `"..."`, `merge_values(S, S)` returns
a newly built empty sequence `[]` (identity flag false) rather than `S`:
the duplicate-detection set is pre-seeded with the dedup keys of all of
`S`'s items, so every item of the new sequence is skipped as already seen,
and the length check `len([]) == len(S)` fails for non-empty `S`. -/
theorem claimC3 (S : List Value) (hne : S ≠ [])
    (hnp : Value.str "..." ∉ S) :
    mergeValues (.list S) (.list S) = (.list [], false) := by
  have hnp' : ∀ x ∈ S, pyEq x (.str "...") = false := by
    intro x hx
    cases hpe : pyEq x (.str "...") with
    | false => rfl
    | true => exact absurd ((pyEq_ellipsis_iff x).mp hpe ▸ hx) hnp
  have hloop := @mergeListLoop_all_seen (.list S) S (seedSeen S)
    hnp' (fun x hx => seedSeen_contains hx) [] false
  have hlen : (0 : Nat) ≠ S.length := by
    cases S with
    | nil => exact absurd rfl hne
    | cons a as => simp
  simp [mergeValues, mergeList, hloop, hlen]

/-! ## Python dict equality, decomposed -/

theorem insertWith_perm (le : α → α → Bool) (a : α) (l : List α) :
    List.Perm (insertWith le a l) (a :: l) := by
  induction l with
  | nil => exact List.Perm.refl _
  | cons b bs ih =>
      by_cases h : le a b = true
      · simp [insertWith, h]
      · simp only [insertWith, h, Bool.false_eq_true, if_false]
        exact (ih.cons b).trans (List.Perm.swap a b bs)

theorem sortWith_perm (le : α → α → Bool) (l : List α) :
    List.Perm (sortWith le l) l := by
  induction l with
  | nil => exact List.Perm.refl _
  | cons a as ih => exact (insertWith_perm le a (sortWith le as)).trans (ih.cons a)

theorem mem_normE {k : String} {v : Value} {l : Entries} (h : (k, v) ∈ l) :
    (k, normV v) ∈ normE l := by
  induction l with
  | nil => simp at h
  | cons p rest ih =>
      obtain ⟨k', v'⟩ := p
      rcases List.mem_cons.mp h with h1 | h1
      · cases h1
        simp [normE]
      · simp [normE, ih h1]

theorem normE_mem {k : String} {w : Value} {l : Entries} (h : (k, w) ∈ normE l) :
    ∃ v, (k, v) ∈ l ∧ w = normV v := by
  induction l with
  | nil => simp [normE] at h
  | cons p rest ih =>
      obtain ⟨k', v'⟩ := p
      simp only [normE, List.mem_cons] at h
      rcases h with h1 | h1
      · obtain ⟨hk, hw⟩ := Prod.mk.injEq .. ▸ h1
        exact ⟨v', by simp [hk], hw⟩
      · obtain ⟨v, hv, hw⟩ := ih h1
        exact ⟨v, List.mem_cons_of_mem _ hv, hw⟩

/-- Decomposition of Python dict equality: if `a == b` (as Python dicts)
then every entry of `b` has a py-equal value at the same key in `a`. -/
theorem pyEq_dict_entries {a b : Entries} (h : pyEq (.dict a) (.dict b) = true)
    (hnda : nodupKeysB a = true) :
    ∀ {k : String} {v : Value}, (k, v) ∈ b →
      ∃ u, lookupE k a = some u ∧ pyEq u v = true := by
  intro k v hm
  have hne : normV (.dict a) = normV (.dict b) := (beqV_iff _ _).mp h
  have he : sortByKey (normE a) = sortByKey (normE b) := by
    simpa [normV] using hne
  have h1 : (k, normV v) ∈ sortByKey (normE b) :=
    ((sortWith_perm _ _).mem_iff).mpr (mem_normE hm)
  rw [← he] at h1
  have h2 : (k, normV v) ∈ normE a := ((sortWith_perm _ _).mem_iff).mp h1
  obtain ⟨u, hu, hnu⟩ := normE_mem h2
  refine ⟨u, mem_lookupE_nodup hu hnda, ?_⟩
  simp [pyEq, ← hnu, beqV_refl]

theorem normV_dict_shape {w : Value} {l : Entries} (h : normV w = .dict l) :
    ∃ kvs, w = .dict kvs := by
  cases w with
  | dict kvs => exact ⟨kvs, rfl⟩
  | str s => simp [normV] at h
  | int n => simp [normV] at h
  | bool b => simp [normV] at h
  | list xs => simp [normV] at h

/-- Merging a py-equal well-behaved `new` into a well-formed `old` returns
the `old` object itself. -/
theorem mergeValues_pyEq_self : (v : Value) → valueOK v = true →
    ∀ w : Value, wfValue w = true → pyEq w v = true → mergeValues w v = (w, true)
  | .str s, _ => by
      intro w _ hpe
      simp [mergeValues, hpe]
  | .int n, _ => by
      intro w _ hpe
      simp [mergeValues, hpe]
  | .bool b, _ => by
      intro w _ hpe
      simp [mergeValues, hpe]
  | .list xs, h => by simp [valueOK] at h
  | .dict ns, h => by
      intro w hwf hpe
      simp only [valueOK, Bool.and_eq_true, Bool.not_eq_true'] at h
      obtain ⟨⟨hbang, hnd⟩, hok⟩ := h
      obtain ⟨ws, rfl⟩ : ∃ kvs, w = .dict kvs := by
        refine @normV_dict_shape w (sortByKey (normE ns)) ?_
        have hh := (beqV_iff _ _).mp hpe
        rw [hh]
        simp [normV]
      simp only [wfValue, Bool.and_eq_true] at hwf
      obtain ⟨hndw, hwfw⟩ := hwf
      have hloop : mergeDictLoop ws ns false = (ws, false) :=
        mergeDictLoop_unchanged (fun kv hkv => by
          obtain ⟨k, x⟩ := kv
          obtain ⟨u, hu, hpu⟩ := pyEq_dict_entries hpe hndw hkv
          refine ⟨u, hu, ?_⟩
          rw [mergeValues_pyEq_self x (entriesOK_mem hkv hok) u
            (wfEntries_mem (lookupE_mem hu) hwfw) hpu])
      simp [mergeValues, hbang, hloop]
termination_by v _ => sizeOf v
decreasing_by
  simp only [Value.dict.sizeOf_spec]
  have := sizeOf_lt_of_mem_entries hkv
  omega

/-! ## Claims C2, C4, C5 -/

/-- **C2** (corrected): the identity short-circuit for mappings.  As
stated in the spec the claim is false (see `claimC2_counterexample`): even
when every key of `N` is present in `M` with a `==`-equal value, a
sequence value inside `N` is re-merged into a *fresh empty* sequence, so
`merge_values(M, N)` is not `M`.  Amended: if additionally the values of
`N` contain no sequences and no clear-marker keys at any depth (and `M`,
`N` have duplicate-free keys, as every parsed Python dict does), then
`merge_values(M, N)` returns the very object `M` (identity flag `true`). -/
theorem claimC2 (M N : Entries)
    (hbang : containsKey "!" N = false)
    (hsub : ∀ kv ∈ N, ∃ w, lookupE kv.1 M = some w ∧ pyEq w kv.2 = true)
    (hNok : entriesOK N = true)
    (hMwf : wfValue (.dict M) = true) :
    mergeValues (.dict M) (.dict N) = (.dict M, true) := by
  simp only [wfValue, Bool.and_eq_true] at hMwf
  obtain ⟨hndM, hwfM⟩ := hMwf
  have hloop : mergeDictLoop M N false = (M, false) :=
    mergeDictLoop_unchanged (fun kv hkv => by
      obtain ⟨k, x⟩ := kv
      obtain ⟨w, hw, hpw⟩ := hsub (k, x) hkv
      exact ⟨w, hw, by
        rw [mergeValues_pyEq_self x (entriesOK_mem hkv hNok) w
          (wfEntries_mem (lookupE_mem hw) hwfM) hpw]⟩)
  simp [mergeValues, hbang, hloop]

/-- **C2** counterexample to the claim as stated: `M = {"k": ["a"]}` and
`N = {"k": ["a"]}` — every key of `N` is present in `M` with a `==`-equal
value and `N` has no `"!"` key, yet `merge_values(M, N)` is the freshly
built `{"k": []}` with identity flag `false`, not the object `M`. -/
theorem claimC2_counterexample :
    lookupE "k" [("k", Value.list [Value.str "a"])] = some (Value.list [Value.str "a"]) ∧
    pyEq (Value.list [Value.str "a"]) (Value.list [Value.str "a"]) = true ∧
    containsKey "!" [("k", Value.list [Value.str "a"])] = false ∧
    mergeValues (.dict [("k", Value.list [Value.str "a"])])
        (.dict [("k", Value.list [Value.str "a"])])
      = (.dict [("k", Value.list [])], false) :=
  ⟨rfl, rfl, rfl, rfl⟩

/-- Witness for `claimC2` at a concrete instance. -/
theorem claimC2_witness :
    mergeValues (.dict [("a", Value.int 1), ("b", Value.str "s")])
        (.dict [("a", Value.int 1)])
      = (.dict [("a", Value.int 1), ("b", Value.str "s")], true) :=
  claimC2 _ _ rfl
    (by
      intro kv hkv
      simp only [List.mem_singleton] at hkv
      subst hkv
      exact ⟨Value.int 1, rfl, rfl⟩)
    rfl rfl

/-- Witness for `claimC3` at a concrete instance. -/
theorem claimC3_witness :
    mergeValues (.list [Value.str "a"]) (.list [Value.str "a"]) = (.list [], false) :=
  claimC3 [Value.str "a"] (by simp) (by simp)

/-- **C4** (confirmed): clear-operator semantics.  When the new mapping
contains the clear-marker key `"!"`, `merge_values` returns new with the
`"!"` key removed, discarding every entry of old, and the result is a
fresh object (identity flag `false`, i.e. reported as changed) even when
its content happens to equal old's. -/
theorem claimC4 (old new : Entries) (h : containsKey "!" new = true) :
    mergeValues (.dict old) (.dict new)
      = (.dict (new.filter (fun p => p.1 ≠ "!")), false) := by
  simp [mergeValues, h]

/-- Witness for `claimC4`: the spec's own example
`merge({"a":1,"b":2}, {"!":true, "c":3}) = {"c":3}`, plus an instance
where the cleared content equals old's yet is still reported changed. -/
theorem claimC4_witness :
    containsKey "!" [("!", Value.bool true), ("c", Value.int 3)] = true ∧
    mergeValues (.dict [("a", Value.int 1), ("b", Value.int 2)])
        (.dict [("!", Value.bool true), ("c", Value.int 3)])
      = (.dict [("c", Value.int 3)], false) ∧
    mergeValues (.dict [("c", Value.int 3)])
        (.dict [("!", Value.bool true), ("c", Value.int 3)])
      = (.dict [("c", Value.int 3)], false) :=
  ⟨rfl, claimC4 _ _ rfl, claimC4 _ _ rfl⟩

/-- **C5** (confirmed): preserve-operator with dedup, at the spec's
concrete scenario: `merge(["x","y"], ["z","...","x"]) = ["z","x","y"]` —
`"z"` is appended (unseen), `"..."` splices in `"x"` then `"y"` (old's
order, not yet in the result), and the trailing explicit `"x"` is dropped
because its dedup key is already in the seen set (seeded from old). -/
theorem claimC5 :
    mergeValues (.list [Value.str "x", Value.str "y"])
        (.list [Value.str "z", Value.str "...", Value.str "x"])
      = (.list [Value.str "z", Value.str "x", Value.str "y"], false) := rfl

/-! ## Filesystem lemmas and claims C6, C7, C8 -/

theorem lookupFS_setFS_self (p : Path) (fd : FileData) (fs : FS) :
    lookupFS p (setFS p fd fs) = some fd := by
  induction fs with
  | nil => simp [setFS, lookupFS]
  | cons q rest ih =>
      obtain ⟨q1, q2⟩ := q
      by_cases h : q1 = p
      · simp [setFS, h, lookupFS]
      · simp [setFS, h, lookupFS, ih]

theorem lookupFS_setFS_ne (p q : Path) (fd : FileData) (fs : FS) (h : q ≠ p) :
    lookupFS q (setFS p fd fs) = lookupFS q fs := by
  induction fs with
  | nil => simp [setFS, lookupFS, Ne.symm h]
  | cons r rest ih =>
      obtain ⟨r1, r2⟩ := r
      by_cases h0 : r1 = p
      · subst h0
        simp [setFS, lookupFS, Ne.symm h]
      · by_cases h1 : r1 = q
        · simp [setFS, h0, lookupFS, h1, h]
        · simp [setFS, h0, lookupFS, h1, ih]

theorem ne_append_prev (p : Path) : p ≠ p ++ ".prev" := by
  intro h
  have h2 := congrArg String.length h
  rw [String.length_append] at h2
  have h5 : (".prev" : String).length = 5 := rfl
  omega

/-- **C8** (confirmed): reading is best-effort and never fatal.
`read_plist` is a total function of the filesystem (no exception escapes:
the parse failure of either the normal or the elevated reader is caught),
it returns the empty mapping whenever the path is absent or its content
fails to parse, and every log line it can emit is at debug level. -/
theorem claimC8 (fs : FS) (p : Path) (su : Bool) :
    ((lookupFS p fs = none ∨ (∃ blob, lookupFS p fs = some (.corrupt blob))) →
      (readPlist fs p su).1 = Value.dict []) ∧
    (∀ e ∈ (readPlist fs p su).2, e.level = "debug") := by
  constructor
  · rintro (h | ⟨blob, h⟩) <;> simp [readPlist, h]
  · intro e he
    cases hl : lookupFS p fs with
    | none => simp [readPlist, hl] at he
    | some fd =>
        cases fd with
        | plist b v => simp [readPlist, hl] at he
        | corrupt blob =>
            simp only [readPlist, hl, List.mem_singleton] at he
            subst he
            rfl

/-- Witness for `claimC8`: a corrupt store and a missing store both read
as the empty mapping. -/
theorem claimC8_witness :
    (readPlist [("/p.plist", FileData.corrupt "junk")] "/p.plist" false).1 = Value.dict [] ∧
    (readPlist [] "/q.plist" true).1 = Value.dict [] :=
  ⟨(claimC8 [("/p.plist", FileData.corrupt "junk")] "/p.plist" false).1 (Or.inr ⟨"junk", rfl⟩),
   (claimC8 [] "/q.plist" true).1 (Or.inl rfl)⟩

/-- **C6** (corrected): write postcondition on the backup Option.  As
stated the claim is false (see `claimC6_counterexample`): a successful
non-elevated write to a previously non-existent target returns no backup
path yet does change the target.  Amended, for the non-elevated path and
assuming no stale backup file pre-exists: if the target existed before the
call, the returned backup path is `path + ".prev"`, a backup holding the
exact prior content was created by this write, and the target now holds
the serialized new value; if the target did not exist, no backup path is
returned, no backup event occurs, and the target is created fresh with
the new value. -/
theorem claimC6 (fs : FS) (p : Path) (v : Value)
    (hstale : lookupFS (p ++ ".prev") fs = none) :
    (∀ fd, lookupFS p fs = some fd →
        (writePlist fs p v false false).1 = some (p ++ ".prev") ∧
        lookupFS (p ++ ".prev") (writePlist fs p v false false).2.1 = some fd ∧
        lookupFS p (writePlist fs p v false false).2.1
          = some (.plist (isBinaryPlist fs p) v) ∧
        (writePlist fs p v false false).2.2
          = [.mkdirP (dirName p), .backup (p ++ ".prev"), .writeFile p]) ∧
    (lookupFS p fs = none →
        (writePlist fs p v false false).1 = none ∧
        lookupFS p (writePlist fs p v false false).2.1 = some (.plist true v) ∧
        (writePlist fs p v false false).2.2 = [.mkdirP (dirName p), .writeFile p]) := by
  constructor
  · intro fd hfd
    simp only [writePlist, if_neg (by simp : ¬ (false = true)), hfd]
    refine ⟨?_, ?_, ?_, ?_⟩
    · simp [existsFS, lookupFS_setFS_ne _ _ _ _ (Ne.symm (ne_append_prev p)),
        lookupFS_setFS_self]
    · simp [lookupFS_setFS_ne _ _ _ _ (Ne.symm (ne_append_prev p)), lookupFS_setFS_self]
    · simp [lookupFS_setFS_self]
    · simp
  · intro hnone
    have hfmt : isBinaryPlist fs p = true := by simp [isBinaryPlist, hnone]
    simp only [writePlist, if_neg (by simp : ¬ (false = true)), hnone, hfmt]
    refine ⟨?_, ?_, ?_⟩
    · simp [existsFS, lookupFS_setFS_ne _ _ _ _ (Ne.symm (ne_append_prev p)), hstale]
    · simp [lookupFS_setFS_self]
    · simp

/-- **C6** counterexample to the claim as stated: a successful
non-dry-run, non-elevated `write_plist` to a target that does not yet
exist returns no backup path, yet the target file *was* changed (created
with the new value) — contradicting "no backup path is returned and the
target file was not changed". -/
theorem claimC6_counterexample :
    (writePlist [] "/Users/user/Library/Preferences/com.test.plist"
        (Value.dict [("k", Value.int 1)]) false false).1 = none ∧
    lookupFS "/Users/user/Library/Preferences/com.test.plist" ([] : FS) = none ∧
    lookupFS "/Users/user/Library/Preferences/com.test.plist"
      (writePlist [] "/Users/user/Library/Preferences/com.test.plist"
        (Value.dict [("k", Value.int 1)]) false false).2.1
      = some (.plist true (Value.dict [("k", Value.int 1)])) :=
  ⟨rfl, rfl, rfl⟩

/-- Witness for `claimC6` at a concrete instance with an existing target. -/
theorem claimC6_witness :
    (writePlist [("/a/b.plist", FileData.plist false (Value.int 1))]
        "/a/b.plist" (Value.int 2) false false).1 = some "/a/b.plist.prev" ∧
    lookupFS "/a/b.plist.prev"
      (writePlist [("/a/b.plist", FileData.plist false (Value.int 1))]
        "/a/b.plist" (Value.int 2) false false).2.1
      = some (FileData.plist false (Value.int 1)) :=
  ⟨((claimC6 [("/a/b.plist", FileData.plist false (Value.int 1))] "/a/b.plist"
      (Value.int 2) rfl).1 _ rfl).1,
   ((claimC6 [("/a/b.plist", FileData.plist false (Value.int 1))] "/a/b.plist"
      (Value.int 2) rfl).1 _ rfl).2.1⟩

/-- **C7** (corrected): store-locator priority.  As stated the claim is
false (see `claimC7_counterexample`): when `host_scoped` is true the code
returns the ByHost path *before* ever consulting the sandboxed-container
check, so an existing sandbox store is not preferred.  Amended: for a
non-literal, non-global identifier, (a) when `host_scoped` is false the
sandboxed-container path is preferred exactly when the (memoized)
existence check says it exists — on a cache miss the filesystem is probed
and the result recorded, on a hit the cached bit decides — and otherwise
the standard path is returned; (b) when `host_scoped` is true the
host-scoped (ByHost) per-identifier path is returned unconditionally,
without consulting the sandbox check. -/
theorem claimC7 (fs : FS) (cache : Cache) (domain : String)
    (h1 : strStartsWith domain "/" = false)
    (h2 : strEndsWith domain ".plist" = false)
    (h3 : domain ≠ "NSGlobalDomain") (h4 : domain ≠ "-g") :
    (lookupCache domain cache = none →
        getPlistPath cache fs domain false =
          ((if existsFS fs (sandboxPath domain) then sandboxPath domain
            else standardPath domain),
           (domain, existsFS fs (sandboxPath domain)) :: cache)) ∧
    (∀ b, lookupCache domain cache = some b →
        getPlistPath cache fs domain false =
          ((if b then sandboxPath domain else standardPath domain), cache)) ∧
    getPlistPath cache fs domain true = (byHostPath domain, cache) := by
  refine ⟨?_, ?_, ?_⟩
  · intro hc
    simp only [getPlistPath, h1, h2, h3, h4, hc, Bool.false_eq_true, if_false]
    simp [h3, h4]
    split <;> rfl
  · intro b hc
    simp only [getPlistPath, h1, h2, h3, h4, hc, Bool.false_eq_true, if_false]
    simp [h3, h4]
    split <;> rfl
  · simp [getPlistPath, h1, h2, h3, h4]

/-- **C7** counterexample to the claim as stated: for the non-literal,
non-global identifier `"com.example.app"` whose sandboxed-container store
exists, resolution with `host_scoped = true` returns the ByHost path, not
the sandboxed-container path the claim requires. -/
theorem claimC7_counterexample :
    existsFS [(sandboxPath "com.example.app", FileData.plist true (Value.dict []))]
      (sandboxPath "com.example.app") = true ∧
    strStartsWith "com.example.app" "/" = false ∧
    strEndsWith "com.example.app" ".plist" = false ∧
    (getPlistPath [] [(sandboxPath "com.example.app", FileData.plist true (Value.dict []))]
      "com.example.app" true).1 = byHostPath "com.example.app" ∧
    byHostPath "com.example.app" ≠ sandboxPath "com.example.app" := by
  refine ⟨rfl, rfl, rfl, rfl, ?_⟩
  intro h
  have h2 := congrArg String.length h
  simp only [byHostPath, sandboxPath, home, hardwareUUID] at h2
  exact absurd h2 (by decide)

/-- Witness for `claimC7` at concrete instances (cache miss with the
sandbox store present, cache hit saying absent, and host-scoped). -/
theorem claimC7_witness :
    getPlistPath [] [(sandboxPath "com.app", FileData.plist true (Value.dict []))]
        "com.app" false
      = (sandboxPath "com.app", [("com.app", true)]) ∧
    getPlistPath [("com.app", false)] [] "com.app" false
      = (standardPath "com.app", [("com.app", false)]) ∧
    getPlistPath [] [] "com.app" true = (byHostPath "com.app", []) := by
  refine ⟨?_, ?_, ?_⟩
  · have h := (claimC7 [(sandboxPath "com.app", FileData.plist true (Value.dict []))]
      [] "com.app" rfl rfl (by simp) (by simp)).1 rfl
    simpa using h
  · have h := ((claimC7 [] [("com.app", false)] "com.app" rfl rfl (by simp) (by simp)).2.1)
      false rfl
    simpa using h
  · exact (claimC7 [] [] "com.app" rfl rfl (by simp) (by simp)).2.2

/-! ## Dry-run frame (C9) -/

theorem applyDefaults_dry (fs : FS) (cache : Cache) (d : String) (v : Value)
    (ch su : Bool) :
    (applyDefaults fs cache d v ch su true).fs = fs ∧
    (applyDefaults fs cache d v ch su true).events = [] ∧
    (applyDefaults fs cache d v ch su true).backup = none := by
  unfold applyDefaults
  by_cases hm : (mergeValues (readPlist fs (getPlistPath cache fs d ch).1 su).1 v).2 = true
  · simp [hm]
  · simp [hm, writePlist]

theorem applyDomains_dry (data : List (String × Value)) :
    ∀ (fs : FS) (cache : Cache) (ch su : Bool),
      (applyDomains fs cache data ch su true).fs = fs ∧
      (applyDomains fs cache data ch su true).events = [] ∧
      (applyDomains fs cache data ch su true).backups = [] := by
  induction data with
  | nil => intro fs cache ch su; exact ⟨rfl, rfl, rfl⟩
  | cons dv rest ih =>
      intro fs cache ch su
      obtain ⟨d, v⟩ := dv
      obtain ⟨h1, h2, h3⟩ := applyDefaults_dry fs cache d v ch su
      obtain ⟨i1, i2, i3⟩ := ih fs (applyDefaults fs cache d v ch su true).cache ch su
      refine ⟨?_, ?_, ?_⟩
      · simp [applyDomains, i1, h1]
      · simp [applyDomains, h1, h2, i2]
      · simp [applyDomains, h1, h3, i3]

theorem processTomlFile_dry (fs : FS) (cache : Cache) (u : ConfigUnit) :
    (processTomlFile fs cache u true).fs = fs ∧
    (processTomlFile fs cache u true).events = [] ∧
    (processTomlFile fs cache u true).backups = [] := by
  unfold processTomlFile
  by_cases he : u.data.isEmpty
  · simp [he]
  · obtain ⟨h1, h2, h3⟩ := applyDomains_dry u.data fs cache u.currentHost u.useSudo
    simp [he, h1, h2, h3]

theorem processUnits_dry (units : List ConfigUnit) :
    ∀ (fs : FS) (cache : Cache),
      (processUnits fs cache units true).fs = fs ∧
      (processUnits fs cache units true).events = [] ∧
      (processUnits fs cache units true).backups = [] := by
  induction units with
  | nil => intro fs cache; exact ⟨rfl, rfl, rfl⟩
  | cons u rest ih =>
      intro fs cache
      obtain ⟨h1, h2, h3⟩ := processTomlFile_dry fs cache u
      obtain ⟨i1, i2, i3⟩ := ih fs (processTomlFile fs cache u true).cache
      refine ⟨?_, ?_, ?_⟩
      · simp [processUnits, i1, h1]
      · simp [processUnits, h1, h2, i2]
      · simp [processUnits, h1, h3, i3]

/-- **C9** (confirmed): dry-run frame condition.  With the dry-run flag
set, a whole run leaves the filesystem exactly as it found it and performs
no effect at all: no directory creation, no backup, no store write, no
process kill, no cache-invalidation signal, no backup unlink — the event
trace of the run is empty (reads are the only filesystem access, and the
collected backup list is empty). -/
theorem claimC9 (units : List ConfigUnit) (fs : FS) (cache : Cache) :
    (runMain units fs cache true).fs = fs ∧
    (runMain units fs cache true).events = [] ∧
    (runMain units fs cache true).backups = [] := by
  obtain ⟨h1, h2, h3⟩ := processUnits_dry units fs cache
  unfold runMain
  simp [killProcesses, h1, h2, h3, cleanupBackups]

/-! ## Restart/invalidation aggregation (C10) -/

theorem mem_insertIfAbsent {x y : String} {l : List String} :
    y ∈ insertIfAbsent x l ↔ y ∈ l ∨ y = x := by
  unfold insertIfAbsent
  by_cases h : l.contains x
  · simp only [h, if_true]
    constructor
    · exact Or.inl
    · rintro (hy | rfl)
      · exact hy
      · exact List.mem_of_elem_eq_true h
  · simp only [h, Bool.false_eq_true, if_false, List.mem_append, List.mem_singleton]

theorem insertIfAbsent_nodup {x : String} {l : List String} (h : l.Nodup) :
    (insertIfAbsent x l).Nodup := by
  unfold insertIfAbsent
  by_cases hc : l.contains x
  · simp [List.mem_of_elem_eq_true hc, h]
  · simp only [hc, Bool.false_eq_true, if_false]
    have hx : x ∉ l := by
      intro hm
      exact absurd (List.elem_eq_true_of_mem hm) (by simpa using hc)
    simp [List.nodup_append, h, hx]

theorem mem_unionAll {y : String} (l : List String) :
    ∀ acc : List String, y ∈ unionAll acc l ↔ y ∈ acc ∨ y ∈ l := by
  induction l with
  | nil => intro acc; simp [unionAll]
  | cons x xs ih =>
      intro acc
      simp only [unionAll, List.foldl_cons] at *
      rw [ih (insertIfAbsent x acc), mem_insertIfAbsent]
      simp [or_assoc, or_comm, or_left_comm]

theorem unionAll_nodup (l : List String) :
    ∀ acc : List String, acc.Nodup → (unionAll acc l).Nodup := by
  induction l with
  | nil => intro acc h; exact h
  | cons x xs ih =>
      intro acc h
      exact ih (insertIfAbsent x acc) (insertIfAbsent_nodup h)

theorem mem_dedupList {y : String} {l : List String} : y ∈ dedupList l ↔ y ∈ l := by
  unfold dedupList
  rw [mem_unionAll]
  simp

theorem dedupList_nodup (l : List String) : (dedupList l).Nodup :=
  unionAll_nodup l [] List.nodup_nil

theorem restart_notMem_writePlist (fs : FS) (p : Path) (v : Value) (su dr : Bool)
    (n : String) :
    Event.kill n ∉ (writePlist fs p v su dr).2.2 ∧
    Event.invalidateCache ∉ (writePlist fs p v su dr).2.2 := by
  cases dr with
  | true => simp [writePlist]
  | false =>
      cases hl : lookupFS p fs with
      | some fd => cases su <;> simp [writePlist, hl]
      | none => cases su <;> simp [writePlist, hl]

theorem restart_notMem_applyDefaults (fs : FS) (cache : Cache) (d : String) (v : Value)
    (ch su dr : Bool) (n : String) :
    Event.kill n ∉ (applyDefaults fs cache d v ch su dr).events ∧
    Event.invalidateCache ∉ (applyDefaults fs cache d v ch su dr).events := by
  unfold applyDefaults
  by_cases hm : (mergeValues (readPlist fs (getPlistPath cache fs d ch).1 su).1 v).2 = true
  · simp [hm]
  · simpa [hm] using restart_notMem_writePlist fs (getPlistPath cache fs d ch).1
      (mergeValues (readPlist fs (getPlistPath cache fs d ch).1 su).1 v).1 su dr n

theorem restart_notMem_applyDomains (data : List (String × Value)) :
    ∀ (fs : FS) (cache : Cache) (ch su dr : Bool) (n : String),
      Event.kill n ∉ (applyDomains fs cache data ch su dr).events ∧
      Event.invalidateCache ∉ (applyDomains fs cache data ch su dr).events := by
  induction data with
  | nil => intro fs cache ch su dr n; simp [applyDomains]
  | cons dv rest ih =>
      intro fs cache ch su dr n
      obtain ⟨d, v⟩ := dv
      obtain ⟨h1, h2⟩ := restart_notMem_applyDefaults fs cache d v ch su dr n
      obtain ⟨i1, i2⟩ := ih (applyDefaults fs cache d v ch su dr).fs
        (applyDefaults fs cache d v ch su dr).cache ch su dr n
      constructor
      · simp [applyDomains, List.mem_append, h1, i1]
      · simp [applyDomains, List.mem_append, h2, i2]

theorem restart_notMem_processTomlFile (fs : FS) (cache : Cache) (u : ConfigUnit)
    (dr : Bool) (n : String) :
    Event.kill n ∉ (processTomlFile fs cache u dr).events ∧
    Event.invalidateCache ∉ (processTomlFile fs cache u dr).events := by
  unfold processTomlFile
  by_cases he : u.data.isEmpty
  · simp [he]
  · obtain ⟨h1, h2⟩ := restart_notMem_applyDomains u.data fs cache u.currentHost u.useSudo dr n
    simp [he, h1, h2]

theorem restart_notMem_processUnits (units : List ConfigUnit) :
    ∀ (fs : FS) (cache : Cache) (dr : Bool) (n : String),
      Event.kill n ∉ (processUnits fs cache units dr).events ∧
      Event.invalidateCache ∉ (processUnits fs cache units dr).events := by
  induction units with
  | nil => intro fs cache dr n; simp [processUnits]
  | cons u rest ih =>
      intro fs cache dr n
      obtain ⟨h1, h2⟩ := restart_notMem_processTomlFile fs cache u dr n
      obtain ⟨i1, i2⟩ := ih (processTomlFile fs cache u dr).fs
        (processTomlFile fs cache u dr).cache dr n
      constructor
      · simp [processUnits, List.mem_append, h1, i1]
      · simp [processUnits, List.mem_append, h2, i2]

theorem restart_notMem_cleanupBackups (bks : List Path) :
    ∀ (fs : FS) (n : String),
      Event.kill n ∉ (cleanupBackups fs bks).2 ∧
      Event.invalidateCache ∉ (cleanupBackups fs bks).2 := by
  induction bks with
  | nil => intro fs n; simp [cleanupBackups]
  | cons p rest ih =>
      intro fs n
      unfold cleanupBackups
      by_cases he : existsFS fs p = true
      · obtain ⟨i1, i2⟩ := ih (removeFS p fs) n
        simp [he, i1, i2]
      · simpa [he] using ih fs n

theorem processTomlFile_processes_mem (fs : FS) (cache : Cache) (u : ConfigUnit)
    (dr : Bool) (name : String) :
    name ∈ (processTomlFile fs cache u dr).processes ↔
      (processTomlFile fs cache u dr).changed = true ∧ name ∈ u.kill := by
  unfold processTomlFile
  by_cases he : u.data.isEmpty
  · simp [he]
  · by_cases hc : (applyDomains fs cache u.data u.currentHost u.useSudo dr).changedAny = true
    · simp [he, hc, mem_dedupList]
    · simp [he, hc]

theorem processUnits_processes_nodup (units : List ConfigUnit) :
    ∀ (fs : FS) (cache : Cache) (dr : Bool),
      (processUnits fs cache units dr).processes.Nodup := by
  induction units with
  | nil => intro fs cache dr; simp [processUnits]
  | cons u rest ih =>
      intro fs cache dr
      exact unionAll_nodup _ _ (ih (processTomlFile fs cache u dr).fs
        (processTomlFile fs cache u dr).cache dr)

theorem processUnits_processes_mem (units : List ConfigUnit) :
    ∀ (fs : FS) (cache : Cache) (dr : Bool) (name : String),
      name ∈ (processUnits fs cache units dr).processes ↔
        ∃ pu ∈ units.zip (processUnits fs cache units dr).unitFlags,
          pu.2 = true ∧ name ∈ pu.1.kill := by
  induction units with
  | nil => intro fs cache dr name; simp [processUnits]
  | cons u rest ih =>
      intro fs cache dr name
      rw [show (processUnits fs cache (u :: rest) dr)
          = { changed := (processTomlFile fs cache u dr).changed
                || (processUnits (processTomlFile fs cache u dr).fs
                      (processTomlFile fs cache u dr).cache rest dr).changed,
              processes := unionAll (processUnits (processTomlFile fs cache u dr).fs
                      (processTomlFile fs cache u dr).cache rest dr).processes
                  (processTomlFile fs cache u dr).processes,
              backups := (processTomlFile fs cache u dr).backups
                  ++ (processUnits (processTomlFile fs cache u dr).fs
                      (processTomlFile fs cache u dr).cache rest dr).backups,
              unitFlags := (processTomlFile fs cache u dr).changed
                  :: (processUnits (processTomlFile fs cache u dr).fs
                      (processTomlFile fs cache u dr).cache rest dr).unitFlags,
              fs := (processUnits (processTomlFile fs cache u dr).fs
                      (processTomlFile fs cache u dr).cache rest dr).fs,
              cache := (processUnits (processTomlFile fs cache u dr).fs
                      (processTomlFile fs cache u dr).cache rest dr).cache,
              events := (processTomlFile fs cache u dr).events
                  ++ (processUnits (processTomlFile fs cache u dr).fs
                      (processTomlFile fs cache u dr).cache rest dr).events }
        from rfl]
      rw [mem_unionAll]
      simp only [List.zip_cons_cons, List.mem_cons]
      constructor
      · rintro (hr | hu)
        · obtain ⟨pu, hpu, hflag, hname⟩ :=
            (ih (processTomlFile fs cache u dr).fs (processTomlFile fs cache u dr).cache
              dr name).mp hr
          exact ⟨pu, Or.inr hpu, hflag, hname⟩
        · obtain ⟨hch, hk⟩ := (processTomlFile_processes_mem fs cache u dr name).mp hu
          exact ⟨(u, (processTomlFile fs cache u dr).changed), Or.inl rfl, hch, hk⟩
      · rintro ⟨pu, hpu | hpu, hflag, hname⟩
        · cases hpu
          exact Or.inr ((processTomlFile_processes_mem fs cache u dr name).mpr ⟨hflag, hname⟩)
        · exact Or.inl ((ih (processTomlFile fs cache u dr).fs
            (processTomlFile fs cache u dr).cache dr name).mpr ⟨pu, hpu, hflag, hname⟩)

theorem killProcesses_count (ps : List String) (hnd : ps.Nodup) (name : String) :
    (killProcesses ps false).count (Event.kill name) = if name ∈ ps then 1 else 0 := by
  unfold killProcesses
  simp only [Bool.false_eq_true, if_false]
  have hperm := sortWith_perm (fun a b : String => a ≤ b) ps
  have hinj : Function.Injective Event.kill := fun a b h => by
    cases h
    rfl
  rw [List.count_map_of_injective _ Event.kill hinj name]
  by_cases hn : name ∈ ps
  · rw [List.count_eq_one_of_mem (hperm.nodup_iff.mpr hnd) (hperm.mem_iff.mpr hn), if_pos hn]
  · rw [List.count_eq_zero.mpr (fun hc => hn (hperm.mem_iff.mp hc)), if_neg hn]

theorem invalidate_notMem_killProcesses (ps : List String) (dr : Bool) :
    Event.invalidateCache ∉ killProcesses ps dr := by
  unfold killProcesses
  cases dr with
  | true => simp
  | false => simp

/-- **C10** (confirmed): restart and cache-invalidation aggregation for a
non-dry run.  Each process name is `killall`-ed exactly once iff some
domain changed and the name is in the aggregated restart set; the
cache-invalidation signal (`killall cfprefsd` in `main`) fires exactly
once iff some domain changed; and the aggregated restart set contains
exactly the names declared by units whose own domains changed (the union
is deduplicated, and an unchanged unit's list is excluded). -/
theorem claimC10 (units : List ConfigUnit) (fs : FS) (cache : Cache) :
    (∀ name : String,
        (runMain units fs cache false).events.count (Event.kill name)
          = if (runMain units fs cache false).changed = true ∧
                name ∈ (runMain units fs cache false).processes then 1 else 0) ∧
    ((runMain units fs cache false).events.count Event.invalidateCache
      = if (runMain units fs cache false).changed = true then 1 else 0) ∧
    (∀ name : String,
        name ∈ (runMain units fs cache false).processes ↔
          ∃ pu ∈ units.zip (runMain units fs cache false).unitFlags,
            pu.2 = true ∧ name ∈ pu.1.kill) := by
  refine ⟨?_, ?_, ?_⟩
  · intro name
    have h0 : (processUnits fs cache units false).events.count (Event.kill name) = 0 :=
      List.count_eq_zero.mpr (restart_notMem_processUnits units fs cache false name).1
    have hcl : ((cleanupBackups (processUnits fs cache units false).fs
        (processUnits fs cache units false).backups).2).count (Event.kill name) = 0 :=
      List.count_eq_zero.mpr
        (restart_notMem_cleanupBackups (processUnits fs cache units false).backups
          (processUnits fs cache units false).fs name).1
    unfold runMain
    by_cases hch : (processUnits fs cache units false).changed = true
    · simp only [hch, if_true, List.count_append, h0, hcl, true_and]
      rw [killProcesses_count _ (processUnits_processes_nodup units fs cache false) name]
      by_cases hn : name ∈ (processUnits fs cache units false).processes
      · simp [hn]
      · simp [hn]
    · simp only [hch, Bool.false_eq_true, false_and, if_false, List.count_append, h0, hcl]
      simp [hch]
  · have h0 : (processUnits fs cache units false).events.count Event.invalidateCache = 0 :=
      List.count_eq_zero.mpr (restart_notMem_processUnits units fs cache false "").2
    have hcl : ((cleanupBackups (processUnits fs cache units false).fs
        (processUnits fs cache units false).backups).2).count Event.invalidateCache = 0 :=
      List.count_eq_zero.mpr
        (restart_notMem_cleanupBackups (processUnits fs cache units false).backups
          (processUnits fs cache units false).fs "").2
    have hkl : ∀ b : Bool,
        (if b = true then killProcesses (processUnits fs cache units false).processes false
         else []).count Event.invalidateCache = 0 := by
      intro b
      cases b with
      | true =>
          simpa using List.count_eq_zero.mpr
            (invalidate_notMem_killProcesses (processUnits fs cache units false).processes false)
      | false => simp
    unfold runMain
    by_cases hch : (processUnits fs cache units false).changed = true
    · simp only [hch, if_true, List.count_append, h0, hcl]
      have := hkl true
      simp only [if_true] at this
      simp [this, hch]
    · simp only [hch, List.count_append, h0, hcl]
      simp [hch]
  · intro name
    exact processUnits_processes_mem units fs cache false name

/-! ## Second-run idempotence (C1) -/

theorem applyDefaults_path (fs : FS) (cache : Cache) (d : String) (v : Value)
    (ch su dr : Bool) :
    (applyDefaults fs cache d v ch su dr).path = (getPlistPath cache fs d ch).1 := by
  unfold applyDefaults
  dsimp only
  split <;> rfl

theorem applyDefaults_cache (fs : FS) (cache : Cache) (d : String) (v : Value)
    (ch su dr : Bool) :
    (applyDefaults fs cache d v ch su dr).cache = (getPlistPath cache fs d ch).2 := by
  unfold applyDefaults
  dsimp only
  split <;> rfl

theorem readPlist_congr {fs fs' : FS} {p : Path} (su : Bool)
    (h : lookupFS p fs = lookupFS p fs') :
    readPlist fs p su = readPlist fs' p su := by
  unfold readPlist
  rw [h]

/-- The memoization cache either is returned unchanged or gains exactly
the probed entry for `d` (which was absent). -/
theorem getPlistPath_cache_spec (cache : Cache) (fs : FS) (d : String) (ch : Bool) :
    (getPlistPath cache fs d ch).2 = cache ∨
    (lookupCache d cache = none ∧
     (getPlistPath cache fs d ch).2 = (d, existsFS fs (sandboxPath d)) :: cache) := by
  unfold getPlistPath
  by_cases h1 : strStartsWith d "/" = true
  · simp [h1]
  · by_cases h2 : strEndsWith d ".plist" = true
    · simp [h1, h2]
    · by_cases h3 : ch = true
      · by_cases h4 : d = "NSGlobalDomain" ∨ d = "-g" <;> simp [h1, h2, h3, h4]
      · by_cases h4 : d = "NSGlobalDomain" ∨ d = "-g"
        · simp [h1, h2, h3, h4]
        · cases hL : lookupCache d cache with
          | some b =>
              left
              by_cases hb : b = true <;> simp [getPlistPath, h1, h2, h3, h4, hL, hb]
          | none =>
              right
              refine ⟨rfl, ?_⟩
              by_cases hE : existsFS fs (sandboxPath d) = true <;>
                simp [getPlistPath, h1, h2, h3, h4, hL, hE]

theorem getPlistPath_cache_mono (cache : Cache) (fs : FS) (d : String) (ch : Bool)
    {d' : String} {b : Bool} (h : lookupCache d' cache = some b) :
    lookupCache d' (getPlistPath cache fs d ch).2 = some b := by
  rcases getPlistPath_cache_spec cache fs d ch with hs | ⟨hnone, hs⟩
  · rw [hs]; exact h
  · rw [hs]
    unfold lookupCache
    by_cases hd : d = d'
    · subst hd
      rw [h] at hnone
      cases hnone
    · simp [hd, h]

/-- Resolution is stable: a later call whose cache dominates the entry
recorded by an earlier call (for the same identifier and host flag)
yields the same path, independent of the later filesystem. -/
theorem getPlistPath_stable (cache : Cache) (fs : FS) (d : String) (ch : Bool)
    (cache₂ : Cache) (fs₂ : FS)
    (hc : ∀ b, lookupCache d (getPlistPath cache fs d ch).2 = some b →
          lookupCache d cache₂ = some b) :
    (getPlistPath cache₂ fs₂ d ch).1 = (getPlistPath cache fs d ch).1 := by
  by_cases h1 : strStartsWith d "/" = true
  · simp [getPlistPath, h1]
  · by_cases h2 : strEndsWith d ".plist" = true
    · simp [getPlistPath, h1, h2]
    · by_cases h3 : ch = true
      · by_cases h4 : d = "NSGlobalDomain" ∨ d = "-g" <;> simp [getPlistPath, h1, h2, h3, h4]
      · by_cases h4 : d = "NSGlobalDomain" ∨ d = "-g"
        · simp [getPlistPath, h1, h2, h3, h4]
        · cases hL : lookupCache d cache with
          | some b =>
              have hcache1 : (getPlistPath cache fs d ch).2 = cache := by
                by_cases hb : b = true <;> simp [getPlistPath, h1, h2, h3, h4, hL, hb]
              have hc2 : lookupCache d cache₂ = some b := hc b (by rw [hcache1]; exact hL)
              by_cases hb : b = true <;> simp [getPlistPath, h1, h2, h3, h4, hL, hc2, hb]
          | none =>
              have hcache1 : (getPlistPath cache fs d ch).2
                  = (d, existsFS fs (sandboxPath d)) :: cache := by
                rcases getPlistPath_cache_spec cache fs d ch with hs | ⟨_, hs⟩
                · exfalso
                  -- in this branch the cache must have gained the entry
                  have : (getPlistPath cache fs d ch).2 = (d, existsFS fs (sandboxPath d)) :: cache := by
                    by_cases hE : existsFS fs (sandboxPath d) = true <;>
                      simp [getPlistPath, h1, h2, h3, h4, hL, hE]
                  rw [this] at hs
                  exact absurd (congrArg List.length hs) (by simp)
                · exact hs
              have hc2 : lookupCache d cache₂ = some (existsFS fs (sandboxPath d)) := by
                apply hc
                rw [hcache1]
                simp [lookupCache]
              by_cases hE : existsFS fs (sandboxPath d) = true
              · rw [hE] at hc2
                simp [getPlistPath, h1, h2, h3, h4, hL, hc2, hE]
              · replace hE : existsFS fs (sandboxPath d) = false := by
                  simpa using hE
                rw [hE] at hc2
                simp [getPlistPath, h1, h2, h3, h4, hL, hc2, hE]

/-- A single `apply_defaults` touches only its own store path and that
path's backup. -/
theorem applyDefaults_frame (fs : FS) (cache : Cache) (d : String) (v : Value)
    (ch su : Bool) (q : Path)
    (h1 : q ≠ (getPlistPath cache fs d ch).1)
    (h2 : q ≠ (getPlistPath cache fs d ch).1 ++ ".prev") :
    lookupFS q (applyDefaults fs cache d v ch su false).fs = lookupFS q fs := by
  unfold applyDefaults
  by_cases hm : (mergeValues (readPlist fs (getPlistPath cache fs d ch).1 su).1 v).2 = true
  · simp [hm]
  · simp only [hm, Bool.false_eq_true, if_false]
    unfold writePlist
    simp only [if_neg (by simp : ¬ (false = true))]
    cases hl : lookupFS (getPlistPath cache fs d ch).1 fs with
    | some fd =>
        simp only
        rw [lookupFS_setFS_ne _ _ _ _ h1, lookupFS_setFS_ne _ _ _ _ h2]
    | none =>
        simp only
        rw [lookupFS_setFS_ne _ _ _ _ h1]

theorem applyDomains_cache_mono (data : List (String × Value)) :
    ∀ (fs : FS) (cache : Cache) (ch su dr : Bool) {d' : String} {b : Bool},
      lookupCache d' cache = some b →
      lookupCache d' (applyDomains fs cache data ch su dr).cache = some b := by
  induction data with
  | nil => intro fs cache ch su dr d' b h; exact h
  | cons dv rest ih =>
      intro fs cache ch su dr d' b h
      obtain ⟨d, v⟩ := dv
      have h1 : lookupCache d' (applyDefaults fs cache d v ch su dr).cache = some b := by
        rw [applyDefaults_cache]
        exact getPlistPath_cache_mono cache fs d ch h
      exact ih (applyDefaults fs cache d v ch su dr).fs
        (applyDefaults fs cache d v ch su dr).cache ch su dr h1

/-- The per-domain loop touches only the resolved store paths and their
backups. -/
theorem applyDomains_frame (data : List (String × Value)) :
    ∀ (fs : FS) (cache : Cache) (ch su : Bool) (q : Path),
      q ∉ (applyDomains fs cache data ch su false).paths →
      (∀ p ∈ (applyDomains fs cache data ch su false).paths, q ≠ p ++ ".prev") →
      lookupFS q (applyDomains fs cache data ch su false).fs = lookupFS q fs := by
  induction data with
  | nil => intro fs cache ch su q _ _; rfl
  | cons dv rest ih =>
      intro fs cache ch su q hq hqb
      obtain ⟨d, v⟩ := dv
      have hpaths : (applyDomains fs cache ((d, v) :: rest) ch su false).paths
          = (applyDefaults fs cache d v ch su false).path ::
            (applyDomains (applyDefaults fs cache d v ch su false).fs
              (applyDefaults fs cache d v ch su false).cache rest ch su false).paths := rfl
      rw [hpaths] at hq hqb
      have hfs : (applyDomains fs cache ((d, v) :: rest) ch su false).fs
          = (applyDomains (applyDefaults fs cache d v ch su false).fs
              (applyDefaults fs cache d v ch su false).cache rest ch su false).fs := rfl
      rw [hfs]
      rw [ih _ _ ch su q (fun hm => hq (List.mem_cons_of_mem _ hm))
        (fun p hp => hqb p (List.mem_cons_of_mem _ hp))]
      have hqp : q ≠ (getPlistPath cache fs d ch).1 := by
        rw [← applyDefaults_path fs cache d v ch su false]
        intro he
        exact hq (by rw [he]; exact List.mem_cons_self _ _)
      have hqb1 : q ≠ (getPlistPath cache fs d ch).1 ++ ".prev" := by
        rw [← applyDefaults_path fs cache d v ch su false]
        exact hqb _ (List.mem_cons_self _ _)
      exact applyDefaults_frame fs cache d v ch su q hqp hqb1

/-- Re-applying one domain immediately after a first apply is a no-op:
if the second resolution yields the same path and the store at that path
is as the first apply left it, the second apply reports no change and
performs no effect. -/
theorem applyDefaults_second (fs fs₂ : FS) (cache cache₂ : Cache) (d : String) (v : Value)
    (ch su : Bool) (hv : valueOK v = true)
    (hpath : (getPlistPath cache₂ fs₂ d ch).1 = (getPlistPath cache fs d ch).1)
    (hfile : lookupFS (getPlistPath cache fs d ch).1 fs₂
        = lookupFS (getPlistPath cache fs d ch).1 (applyDefaults fs cache d v ch su false).fs) :
    (applyDefaults fs₂ cache₂ d v ch su false).changed = false ∧
    (applyDefaults fs₂ cache₂ d v ch su false).fs = fs₂ ∧
    (applyDefaults fs₂ cache₂ d v ch su false).events = [] ∧
    (applyDefaults fs₂ cache₂ d v ch su false).backup = none := by
  have hread2 : readPlist fs₂ (getPlistPath cache₂ fs₂ d ch).1 su
      = readPlist fs₂ (getPlistPath cache fs d ch).1 su := by rw [hpath]
  by_cases hm : (mergeValues (readPlist fs (getPlistPath cache fs d ch).1 su).1 v).2 = true
  · have hr1fs : (applyDefaults fs cache d v ch su false).fs = fs := by
      unfold applyDefaults
      dsimp only
      rw [if_pos hm]
    rw [hr1fs] at hfile
    have hread : readPlist fs₂ (getPlistPath cache fs d ch).1 su
        = readPlist fs (getPlistPath cache fs d ch).1 su := readPlist_congr su hfile
    have hm2 : (mergeValues (readPlist fs₂ (getPlistPath cache₂ fs₂ d ch).1 su).1 v).2
        = true := by
      rw [hread2, hread]
      exact hm
    unfold applyDefaults
    dsimp only
    rw [if_pos hm2]
    exact ⟨rfl, rfl, rfl, rfl⟩
  · have hr1fs : (applyDefaults fs cache d v ch su false).fs
        = (writePlist fs (getPlistPath cache fs d ch).1
            (mergeValues (readPlist fs (getPlistPath cache fs d ch).1 su).1 v).1 su false).2.1 := by
      unfold applyDefaults
      dsimp only
      rw [if_neg hm]
    have hw : lookupFS (getPlistPath cache fs d ch).1
        (writePlist fs (getPlistPath cache fs d ch).1
          (mergeValues (readPlist fs (getPlistPath cache fs d ch).1 su).1 v).1 su false).2.1
        = some (.plist (isBinaryPlist fs (getPlistPath cache fs d ch).1)
            (mergeValues (readPlist fs (getPlistPath cache fs d ch).1 su).1 v).1) := by
      unfold writePlist
      simp only [if_neg (by simp : ¬ (false = true))]
      cases hl : lookupFS (getPlistPath cache fs d ch).1 fs with
      | some fd =>
          simp only
          rw [lookupFS_setFS_self]
      | none =>
          simp only
          rw [lookupFS_setFS_self]
    rw [hr1fs, hw] at hfile
    have hread : (readPlist fs₂ (getPlistPath cache fs d ch).1 su).1
        = (mergeValues (readPlist fs (getPlistPath cache fs d ch).1 su).1 v).1 := by
      conv_lhs => unfold readPlist
      rw [hfile]
    have hm2 : (mergeValues (readPlist fs₂ (getPlistPath cache₂ fs₂ d ch).1 su).1 v).2
        = true := by
      rw [hread2, hread]
      exact mergeValues_idem v hv _
    unfold applyDefaults
    dsimp only
    rw [if_pos hm2]
    exact ⟨rfl, rfl, rfl, rfl⟩

/-- The generalized two-run lemma behind C1: a second pass over the same
domain list, started from a filesystem that agrees with the first run's
final state on every resolved store path and a cache dominating the first
run's, reports no change anywhere and performs no effect. -/
theorem applyDomains_second (data : List (String × Value)) :
    ∀ (fs : FS) (cache : Cache) (fs₂ : FS) (cache₂ : Cache) (ch su : Bool),
      (∀ kv ∈ data, valueOK kv.2 = true) →
      (applyDomains fs cache data ch su false).paths.Pairwise (fun p q => p ≠ q) →
      (∀ p ∈ (applyDomains fs cache data ch su false).paths,
        ∀ q ∈ (applyDomains fs cache data ch su false).paths, p ≠ q ++ ".prev") →
      (∀ (d' : String) (b : Bool),
        lookupCache d' (applyDomains fs cache data ch su false).cache = some b →
        lookupCache d' cache₂ = some b) →
      (∀ q ∈ (applyDomains fs cache data ch su false).paths,
        lookupFS q fs₂ = lookupFS q (applyDomains fs cache data ch su false).fs) →
      (∀ b ∈ (applyDomains fs₂ cache₂ data ch su false).flags, b = false) ∧
      (applyDomains fs₂ cache₂ data ch su false).fs = fs₂ ∧
      (applyDomains fs₂ cache₂ data ch su false).events = [] ∧
      (applyDomains fs₂ cache₂ data ch su false).backups = [] := by
  induction data with
  | nil =>
      intro fs cache fs₂ cache₂ ch su _ _ _ _ _
      exact ⟨by simp [applyDomains], rfl, rfl, rfl⟩
  | cons dv rest ih =>
      intro fs cache fs₂ cache₂ ch su hvals hdist hbk hcache hfs
      obtain ⟨d, v⟩ := dv
      -- run-1 head and tail, spelled out
      have hpaths1 : (applyDomains fs cache ((d, v) :: rest) ch su false).paths
          = (applyDefaults fs cache d v ch su false).path ::
            (applyDomains (applyDefaults fs cache d v ch su false).fs
              (applyDefaults fs cache d v ch su false).cache rest ch su false).paths := rfl
      have hcache1 : (applyDomains fs cache ((d, v) :: rest) ch su false).cache
          = (applyDomains (applyDefaults fs cache d v ch su false).fs
              (applyDefaults fs cache d v ch su false).cache rest ch su false).cache := rfl
      have hfs1 : (applyDomains fs cache ((d, v) :: rest) ch su false).fs
          = (applyDomains (applyDefaults fs cache d v ch su false).fs
              (applyDefaults fs cache d v ch su false).cache rest ch su false).fs := rfl
      rw [hpaths1] at hdist hbk hfs
      rw [hcache1] at hcache
      rw [hfs1] at hfs
      -- the head resolves to the same path in run 2
      have hpath2 : (getPlistPath cache₂ fs₂ d ch).1 = (getPlistPath cache fs d ch).1 := by
        apply getPlistPath_stable
        intro b hb
        apply hcache
        apply applyDomains_cache_mono rest
        rw [applyDefaults_cache]
        exact hb
      -- the head's store is as run 1 left it
      have hnotmem : (applyDefaults fs cache d v ch su false).path
          ∉ (applyDomains (applyDefaults fs cache d v ch su false).fs
              (applyDefaults fs cache d v ch su false).cache rest ch su false).paths := by
        intro hmem
        exact (List.pairwise_cons.mp hdist).1 _ hmem rfl
      have hfile : lookupFS (getPlistPath cache fs d ch).1 fs₂
          = lookupFS (getPlistPath cache fs d ch).1
              (applyDefaults fs cache d v ch su false).fs := by
        rw [← applyDefaults_path fs cache d v ch su false]
        rw [hfs _ (List.mem_cons_self _ _)]
        exact applyDomains_frame rest _ _ ch su _ hnotmem
          (fun p hp => hbk _ (List.mem_cons_self _ _) p (List.mem_cons_of_mem _ hp))
      obtain ⟨hch2, hfs2, hev2, hbk2⟩ :=
        applyDefaults_second fs fs₂ cache cache₂ d v ch su
          (hvals (d, v) (List.mem_cons_self _ _)) hpath2 hfile
      -- recurse over the tail
      have hcacheR : ∀ (d' : String) (b : Bool),
          lookupCache d' (applyDomains (applyDefaults fs cache d v ch su false).fs
            (applyDefaults fs cache d v ch su false).cache rest ch su false).cache = some b →
          lookupCache d' (applyDefaults fs₂ cache₂ d v ch su false).cache = some b := by
        intro d' b hb
        rw [applyDefaults_cache]
        exact getPlistPath_cache_mono cache₂ fs₂ d ch (hcache d' b hb)
      obtain ⟨ihflags, ihfs, ihev, ihbk⟩ := ih (applyDefaults fs cache d v ch su false).fs
        (applyDefaults fs cache d v ch su false).cache fs₂
        (applyDefaults fs₂ cache₂ d v ch su false).cache ch su
        (fun kv hkv => hvals kv (List.mem_cons_of_mem _ hkv))
        (List.pairwise_cons.mp hdist).2
        (fun p hp q hq => hbk p (List.mem_cons_of_mem _ hp) q (List.mem_cons_of_mem _ hq))
        hcacheR
        (fun q hq => hfs q (List.mem_cons_of_mem _ hq))
      have hunf : applyDomains fs₂ cache₂ ((d, v) :: rest) ch su false
          = { changedAny := (applyDefaults fs₂ cache₂ d v ch su false).changed
                || (applyDomains (applyDefaults fs₂ cache₂ d v ch su false).fs
                    (applyDefaults fs₂ cache₂ d v ch su false).cache rest ch su false).changedAny,
              flags := (applyDefaults fs₂ cache₂ d v ch su false).changed
                :: (applyDomains (applyDefaults fs₂ cache₂ d v ch su false).fs
                    (applyDefaults fs₂ cache₂ d v ch su false).cache rest ch su false).flags,
              backups := (match (applyDefaults fs₂ cache₂ d v ch su false).backup with
                  | some b => [b] | none => [])
                ++ (applyDomains (applyDefaults fs₂ cache₂ d v ch su false).fs
                    (applyDefaults fs₂ cache₂ d v ch su false).cache rest ch su false).backups,
              fs := (applyDomains (applyDefaults fs₂ cache₂ d v ch su false).fs
                    (applyDefaults fs₂ cache₂ d v ch su false).cache rest ch su false).fs,
              cache := (applyDomains (applyDefaults fs₂ cache₂ d v ch su false).fs
                    (applyDefaults fs₂ cache₂ d v ch su false).cache rest ch su false).cache,
              events := (applyDefaults fs₂ cache₂ d v ch su false).events
                ++ (applyDomains (applyDefaults fs₂ cache₂ d v ch su false).fs
                    (applyDefaults fs₂ cache₂ d v ch su false).cache rest ch su false).events,
              paths := (applyDefaults fs₂ cache₂ d v ch su false).path
                :: (applyDomains (applyDefaults fs₂ cache₂ d v ch su false).fs
                    (applyDefaults fs₂ cache₂ d v ch su false).cache rest ch su false).paths }
          := rfl
      rw [hunf, hfs2]
      refine ⟨?_, ?_, ?_, ?_⟩
      · intro b hb
        rcases List.mem_cons.mp hb with hb | hb
        · rw [hb, hch2]
        · exact ihflags b hb
      · exact ihfs
      · rw [hev2, ihev]
        rfl
      · rw [hbk2, ihbk]
        rfl

/-- **C1** (corrected): idempotence of a full apply.  As stated the claim
is false (see `claimC1_counterexample`): a domain whose desired values
contain a sequence is re-merged into a *different* (emptied) sequence on
the second run, which reports `changed = true` and writes again.  Amended:
for every configuration unit whose per-domain value trees contain no
sequences and no clear-marker (`"!"`) keys (with duplicate-free dict keys,
as every parsed document has), and whose domains resolve to pairwise
distinct store paths none of which collides with another's backup path,
running `apply_defaults` over all domains a second time — immediately
after the first run, on the store state the first run left — returns
`changed = false` for every domain, performs no write, backup, or
directory creation, and leaves the store content identical to the state
after the first run. -/
theorem claimC1 (fs0 : FS) (cache0 : Cache) (data : List (String × Value)) (ch su : Bool)
    (hvals : ∀ kv ∈ data, valueOK kv.2 = true)
    (hdist : (applyDomains fs0 cache0 data ch su false).paths.Pairwise (fun p q => p ≠ q))
    (hbk : ∀ p ∈ (applyDomains fs0 cache0 data ch su false).paths,
           ∀ q ∈ (applyDomains fs0 cache0 data ch su false).paths, p ≠ q ++ ".prev") :
    (∀ b ∈ (applyDomains (applyDomains fs0 cache0 data ch su false).fs
        (applyDomains fs0 cache0 data ch su false).cache data ch su false).flags,
      b = false) ∧
    (applyDomains (applyDomains fs0 cache0 data ch su false).fs
        (applyDomains fs0 cache0 data ch su false).cache data ch su false).fs
      = (applyDomains fs0 cache0 data ch su false).fs ∧
    (applyDomains (applyDomains fs0 cache0 data ch su false).fs
        (applyDomains fs0 cache0 data ch su false).cache data ch su false).events = [] ∧
    (applyDomains (applyDomains fs0 cache0 data ch su false).fs
        (applyDomains fs0 cache0 data ch su false).cache data ch su false).backups = [] :=
  applyDomains_second data fs0 cache0
    (applyDomains fs0 cache0 data ch su false).fs
    (applyDomains fs0 cache0 data ch su false).cache ch su
    hvals hdist hbk (fun _ _ h => h) (fun _ _ => rfl)

/-- **C1** counterexample to the claim as stated: the unit
`{"com.test": {"k": ["a"]}}` applied twice from an empty store.  The first
run writes `{"k": ["a"]}`; the second run reports `changed = true` again,
performs a write (and creates a backup), and leaves the store holding
`{"k": []}` — different from the content after the first run. -/
theorem claimC1_counterexample :
    (applyDomains (applyDomains [] []
        [("com.test", Value.dict [("k", Value.list [Value.str "a"])])] false false false).fs
      (applyDomains [] []
        [("com.test", Value.dict [("k", Value.list [Value.str "a"])])] false false false).cache
      [("com.test", Value.dict [("k", Value.list [Value.str "a"])])] false false false).flags
      = [true] ∧
    lookupFS "/Users/user/Library/Preferences/com.test.plist"
      (applyDomains [] []
        [("com.test", Value.dict [("k", Value.list [Value.str "a"])])] false false false).fs
      = some (.plist true (Value.dict [("k", Value.list [Value.str "a"])])) ∧
    lookupFS "/Users/user/Library/Preferences/com.test.plist"
      (applyDomains (applyDomains [] []
          [("com.test", Value.dict [("k", Value.list [Value.str "a"])])] false false false).fs
        (applyDomains [] []
          [("com.test", Value.dict [("k", Value.list [Value.str "a"])])] false false false).cache
        [("com.test", Value.dict [("k", Value.list [Value.str "a"])])] false false false).fs
      = some (.plist true (Value.dict [("k", Value.list [])])) :=
  ⟨rfl, rfl, rfl⟩

/-- Witness for `claimC1` at a concrete unit (one domain, scalar value). -/
theorem claimC1_witness :
    (applyDomains (applyDomains [] []
        [("com.test", Value.dict [("k", Value.int 1)])] false false false).fs
      (applyDomains [] []
        [("com.test", Value.dict [("k", Value.int 1)])] false false false).cache
      [("com.test", Value.dict [("k", Value.int 1)])] false false false).fs
      = (applyDomains [] []
          [("com.test", Value.dict [("k", Value.int 1)])] false false false).fs ∧
    (applyDomains (applyDomains [] []
        [("com.test", Value.dict [("k", Value.int 1)])] false false false).fs
      (applyDomains [] []
        [("com.test", Value.dict [("k", Value.int 1)])] false false false).cache
      [("com.test", Value.dict [("k", Value.int 1)])] false false false).events = [] ∧
    (applyDomains (applyDomains [] []
        [("com.test", Value.dict [("k", Value.int 1)])] false false false).fs
      (applyDomains [] []
        [("com.test", Value.dict [("k", Value.int 1)])] false false false).cache
      [("com.test", Value.dict [("k", Value.int 1)])] false false false).flags = [false] :=
  have h := claimC1 [] [] [("com.test", Value.dict [("k", Value.int 1)])] false false
    (by
      intro kv hkv
      simp only [List.mem_singleton] at hkv
      subst hkv
      rfl)
    (by
      have hp : (applyDomains [] []
          [("com.test", Value.dict [("k", Value.int 1)])] false false false).paths
          = ["/Users/user/Library/Preferences/com.test.plist"] := rfl
      rw [hp]
      exact List.pairwise_singleton _ _)
    (by
      have hp : (applyDomains [] []
          [("com.test", Value.dict [("k", Value.int 1)])] false false false).paths
          = ["/Users/user/Library/Preferences/com.test.plist"] := rfl
      rw [hp]
      intro p hp1 q hq1
      simp only [List.mem_singleton] at hp1 hq1
      subst hp1
      subst hq1
      intro he
      have := congrArg String.length he
      rw [String.length_append] at this
      have h5 : (".prev" : String).length = 5 := rfl
      omega)
  ⟨h.2.1, h.2.2.1, rfl⟩

end ApplyDefaults
